import Mathlib

/-!
Verification of the KFCX document-normalization pipeline
(`src/lib/data/pdf-parser.ts` and `src/lib/data/transcript-parser.ts`).

Strings are modelled as `List Char`.  Each definition is a shallow embedding
of the corresponding JavaScript function; JS regular-expression behaviour
(leftmost match, greedy/lazy backtracking, `m`-flag anchors, `exec` loops
with `lastIndex`) is reproduced by explicit scanning functions.  All
definitions are executable and structurally recursive (or fuelled by the
input length) so that concrete inputs evaluate by `decide`/`rfl`.
-/

namespace KFCX

/-- The JavaScript `\s` character class (WhiteSpace ∪ LineTerminator). -/
def wsList : List Char :=
  [' ', '\t', '\n', '\r', '\x0b', '\x0c', ' ', ' ',
   ' ', ' ', ' ', ' ', ' ', ' ', ' ',
   ' ', ' ', ' ', ' ', ' ', ' ', ' ',
   ' ', '　', '﻿']

/-- JS whitespace test (`\s`, also the set trimmed by `String.trim`). -/
def isWs (c : Char) : Bool := wsList.contains c

/-- JS line terminators (`\n`, `\r`, U+2028, U+2029): the chars that `.`
excludes and at which the `m`-flag `^`/`$` anchors match. -/
def isLineTerm (c : Char) : Bool :=
  c = '\n' || c = '\r' || c = '\u2028' || c = '\u2029'

/-- `text.replace(/\s+/g, " ")`, step 1: every whitespace char becomes `' '`. -/
def wsToSpace (l : List Char) : List Char :=
  l.map (fun c => if isWs c then ' ' else c)

/-- `text.replace(/\s+/g, " ")`, step 2: collapse runs of `' '` to one `' '`. -/
def squeezeSpaces : List Char → List Char
  | [] => []
  | [c] => [c]
  | a :: b :: rest =>
    if a = ' ' ∧ b = ' ' then squeezeSpaces (b :: rest)
    else a :: squeezeSpaces (b :: rest)

/-- `text.replace(/\s+/g, " ")`: maximal whitespace runs become one space. -/
def collapseWs (l : List Char) : List Char := squeezeSpaces (wsToSpace l)

/-- The four smart-quote replacements of `cleanText`. -/
def quoteSub (c : Char) : Char :=
  if c = '“' then '"'
  else if c = '”' then '"'
  else if c = '‘' then '\''
  else if c = '’' then '\''
  else c

/-- `.replace(/“/g,'"').replace(/”/g,'"').replace(/‘/g,"'").replace(/’/g,"'")` -/
def mapQuotes (l : List Char) : List Char := l.map quoteSub

/-- `.replace(/…/g, "...")` : each ellipsis char becomes three dots. -/
def replEll : List Char → List Char
  | [] => []
  | c :: r => if c = '…' then '.' :: '.' :: '.' :: replEll r else c :: replEll r

/-- `String.prototype.trimStart`. -/
def trimLeft (l : List Char) : List Char := l.dropWhile (fun c => isWs c)

/-- `String.prototype.trimEnd`. -/
def trimRight (l : List Char) : List Char :=
  (l.reverse.dropWhile (fun c => isWs c)).reverse

/-- `String.prototype.trim`. -/
def trim (l : List Char) : List Char := trimRight (trimLeft l)

/-- `cleanText` (identical in pdf-parser.ts:382 and transcript-parser.ts:306):
whitespace collapse, smart quotes → ASCII, ellipsis → `"..."`, trim. -/
def cleanText (l : List Char) : List Char :=
  trim (replEll (mapQuotes (collapseWs l)))

/-- The shape of any `cleanText` output: only plain spaces as whitespace,
no space runs, no smart quotes, no ellipsis char, trimmed ends. -/
def Cleaned (l : List Char) : Prop :=
  (∀ c ∈ l, isWs c = true → c = ' ') ∧
  l.Chain' (fun a b => ¬(a = ' ' ∧ b = ' ')) ∧
  (∀ c ∈ l, quoteSub c = c) ∧
  '…' ∉ l ∧
  (∀ c ∈ l.head?, isWs c = false) ∧
  (∀ c ∈ l.getLast?, isWs c = false)

lemma squeeze_cons2 (a b : Char) (r : List Char) :
    squeezeSpaces (a :: b :: r) =
      if a = ' ' ∧ b = ' ' then squeezeSpaces (b :: r)
      else a :: squeezeSpaces (b :: r) := rfl

lemma squeeze_mem {c : Char} : ∀ {l : List Char}, c ∈ squeezeSpaces l → c ∈ l
  | [], h => h
  | [_], h => h
  | a :: b :: r, h => by
    rw [squeeze_cons2] at h
    split at h
    · exact List.mem_cons_of_mem _ (squeeze_mem h)
    · rcases List.mem_cons.mp h with h | h
      · exact h ▸ List.mem_cons_self _ _
      · exact List.mem_cons_of_mem _ (squeeze_mem h)

lemma squeeze_head (b : Char) : ∀ (r : List Char),
    ∃ r', squeezeSpaces (b :: r) = b :: r'
  | [] => ⟨[], rfl⟩
  | c :: r2 => by
    rw [squeeze_cons2]
    split
    · next hbc =>
      obtain ⟨r', hr⟩ := squeeze_head c r2
      exact ⟨r', by rw [hr, hbc.2, hbc.1]⟩
    · exact ⟨squeezeSpaces (c :: r2), rfl⟩

lemma squeeze_noDouble :
    ∀ (l : List Char), (squeezeSpaces l).Chain' (fun a b => ¬(a = ' ' ∧ b = ' '))
  | [] => List.chain'_nil
  | [c] => List.chain'_singleton c
  | a :: b :: r => by
    rw [squeeze_cons2]
    split
    · exact squeeze_noDouble (b :: r)
    · next hab =>
      obtain ⟨r', hr⟩ := squeeze_head b r
      rw [hr]
      exact List.chain'_cons.mpr ⟨hab, hr ▸ squeeze_noDouble (b :: r)⟩

lemma squeeze_id : ∀ {l : List Char},
    l.Chain' (fun a b => ¬(a = ' ' ∧ b = ' ')) → squeezeSpaces l = l
  | [], _ => rfl
  | [_], _ => rfl
  | a :: b :: r, h => by
    rw [squeeze_cons2, if_neg (List.chain'_cons.mp h).1,
      squeeze_id (List.chain'_cons.mp h).2]

lemma mapIdOf {f : Char → Char} : ∀ {l : List Char},
    (∀ c ∈ l, f c = c) → l.map f = l
  | [], _ => rfl
  | a :: r, h => by
    rw [List.map_cons, h a (List.mem_cons_self _ _),
      mapIdOf (fun c hc => h c (List.mem_cons_of_mem _ hc))]

lemma wsToSpace_allWs {l : List Char} :
    ∀ c ∈ wsToSpace l, isWs c = true → c = ' ' := by
  intro c hc hws
  obtain ⟨c0, _, rfl⟩ := List.mem_map.mp hc
  by_cases h : isWs c0 = true
  · simp [h]
  · rw [if_neg h] at hws ⊢
    exact absurd hws h

lemma wsToSpace_id {l : List Char} (h : ∀ c ∈ l, isWs c = true → c = ' ') :
    wsToSpace l = l := by
  unfold wsToSpace
  refine mapIdOf ?_
  intro c hc
  by_cases hws : isWs c = true
  · simp [hws, h c hc hws]
  · simp [hws]

lemma quoteSub_eq_self {c : Char} (h1 : c ≠ '“') (h2 : c ≠ '”')
    (h3 : c ≠ '‘') (h4 : c ≠ '’') : quoteSub c = c := by
  simp [quoteSub, h1, h2, h3, h4]

lemma quoteSub_idem (c : Char) : quoteSub (quoteSub c) = quoteSub c := by
  by_cases h1 : c = '“'
  · subst h1; decide
  by_cases h2 : c = '”'
  · subst h2; decide
  by_cases h3 : c = '‘'
  · subst h3; decide
  by_cases h4 : c = '’'
  · subst h4; decide
  have hq := quoteSub_eq_self h1 h2 h3 h4
  rw [hq, hq]

lemma quoteSub_space {c : Char} (h : quoteSub c = ' ') : c = ' ' := by
  by_cases h1 : c = '“'
  · rw [h1] at h; exact absurd h (by decide)
  by_cases h2 : c = '”'
  · rw [h2] at h; exact absurd h (by decide)
  by_cases h3 : c = '‘'
  · rw [h3] at h; exact absurd h (by decide)
  by_cases h4 : c = '’'
  · rw [h4] at h; exact absurd h (by decide)
  rwa [quoteSub_eq_self h1 h2 h3 h4] at h

lemma mapQuotes_no_smart {l : List Char} :
    ∀ c ∈ mapQuotes l, quoteSub c = c := by
  intro c hc
  obtain ⟨c0, _, rfl⟩ := List.mem_map.mp hc
  exact quoteSub_idem c0

lemma mapQuotes_allWs {l : List Char} (h : ∀ c ∈ l, isWs c = true → c = ' ') :
    ∀ c ∈ mapQuotes l, isWs c = true → c = ' ' := by
  intro c hc hws
  obtain ⟨c0, hc0, rfl⟩ := List.mem_map.mp hc
  by_cases h1 : c0 = '“'
  · subst h1; exact absurd hws (by decide)
  by_cases h2 : c0 = '”'
  · subst h2; exact absurd hws (by decide)
  by_cases h3 : c0 = '‘'
  · subst h3; exact absurd hws (by decide)
  by_cases h4 : c0 = '’'
  · subst h4; exact absurd hws (by decide)
  rw [quoteSub_eq_self h1 h2 h3 h4] at hws ⊢
  exact h c0 hc0 hws

lemma mapQuotes_noDouble {l : List Char}
    (h : l.Chain' (fun a b => ¬(a = ' ' ∧ b = ' '))) :
    (mapQuotes l).Chain' (fun a b => ¬(a = ' ' ∧ b = ' ')) := by
  unfold mapQuotes
  rw [List.chain'_map]
  refine h.imp ?_
  intro a b hab ⟨ha, hb⟩
  exact hab ⟨quoteSub_space ha, quoteSub_space hb⟩

lemma mapQuotes_id {l : List Char} (h : ∀ c ∈ l, quoteSub c = c) :
    mapQuotes l = l := mapIdOf h

lemma replEll_mem {c : Char} : ∀ {l : List Char}, c ∈ replEll l → c ∈ l ∨ c = '.'
  | [], h => absurd h (List.not_mem_nil c)
  | a :: r, h => by
    unfold replEll at h
    split at h
    · simp only [List.mem_cons] at h
      rcases h with h | h | h | h
      · exact Or.inr h
      · exact Or.inr h
      · exact Or.inr h
      · rcases replEll_mem h with h | h
        · exact Or.inl (List.mem_cons_of_mem _ h)
        · exact Or.inr h
    · rcases List.mem_cons.mp h with h | h
      · exact Or.inl (h ▸ List.mem_cons_self _ _)
      · rcases replEll_mem h with h | h
        · exact Or.inl (List.mem_cons_of_mem _ h)
        · exact Or.inr h

lemma replEll_head {b : Char} : ∀ {r : List Char},
    b ∈ (replEll r).head? → b = '.' ∨ b ∈ r.head?
  | [], h => by simp [replEll] at h
  | a :: r2, h => by
    unfold replEll at h
    split at h
    · simp only [List.head?_cons, Option.mem_def, Option.some.injEq] at h
      exact Or.inl h.symm
    · simp only [List.head?_cons, Option.mem_def, Option.some.injEq] at h ⊢
      exact Or.inr h

lemma replEll_noDouble : ∀ {l : List Char},
    l.Chain' (fun a b => ¬(a = ' ' ∧ b = ' ')) →
    (replEll l).Chain' (fun a b => ¬(a = ' ' ∧ b = ' '))
  | [], _ => List.chain'_nil
  | a :: r, h => by
    unfold replEll
    split
    · refine List.chain'_cons'.mpr ⟨?_, List.chain'_cons'.mpr ⟨?_, List.chain'_cons'.mpr ⟨?_, replEll_noDouble h.tail⟩⟩⟩
      · intro b _ ⟨hd, _⟩; exact absurd hd (by decide)
      · intro b _ ⟨hd, _⟩; exact absurd hd (by decide)
      · intro b _ ⟨hd, _⟩; exact absurd hd (by decide)
    · refine List.chain'_cons'.mpr ⟨?_, replEll_noDouble h.tail⟩
      intro b hb ⟨ha, hbs⟩
      rcases replEll_head hb with h1 | h1
      · rw [h1] at hbs; exact absurd hbs (by decide)
      · exact ((List.chain'_cons'.mp h).1 b h1) ⟨ha, hbs⟩

lemma replEll_no_ell : ∀ {l : List Char}, '…' ∉ replEll l
  | [] => List.not_mem_nil _
  | a :: r => by
    unfold replEll
    split
    · intro h
      simp only [List.mem_cons] at h
      rcases h with h | h | h | h
      · exact absurd h (by decide)
      · exact absurd h (by decide)
      · exact absurd h (by decide)
      · exact replEll_no_ell h
    · next ha =>
      intro h
      rcases List.mem_cons.mp h with h | h
      · exact ha h.symm
      · exact replEll_no_ell h

lemma replEll_allWs {l : List Char} (h : ∀ c ∈ l, isWs c = true → c = ' ') :
    ∀ c ∈ replEll l, isWs c = true → c = ' ' := by
  intro c hc hws
  rcases replEll_mem hc with h1 | h1
  · exact h c h1 hws
  · rw [h1] at hws; exact absurd hws (by decide)

lemma replEll_no_smart {l : List Char} (h : ∀ c ∈ l, quoteSub c = c) :
    ∀ c ∈ replEll l, quoteSub c = c := by
  intro c hc
  rcases replEll_mem hc with h1 | h1
  · exact h c h1
  · rw [h1]; decide

lemma dropWhile_head_ws : ∀ (l : List Char),
    ∀ c ∈ (l.dropWhile (fun c => isWs c)).head?, isWs c = false
  | [] => by intro c hc; simp [List.dropWhile] at hc
  | a :: r => by
    intro c hc
    rw [List.dropWhile_cons] at hc
    by_cases h : isWs a = true
    · rw [if_pos h] at hc
      exact dropWhile_head_ws r c hc
    · rw [if_neg h] at hc
      simp only [List.head?_cons, Option.mem_def, Option.some.injEq] at hc
      subst hc
      simpa using h

lemma trimRight_eq (l : List Char) :
    trimRight l = List.rdropWhile (fun c => isWs c) l := rfl

lemma chainOfSuffix {R : Char → Char → Prop} {l1 l : List Char}
    (hs : l1 <:+ l) (h : l.Chain' R) : l1.Chain' R := by
  obtain ⟨t, rfl⟩ := hs
  exact (List.chain'_append.mp h).2.1

lemma chainOfPrefix {R : Char → Char → Prop} {l1 l : List Char}
    (hs : l1 <+: l) (h : l.Chain' R) : l1.Chain' R := by
  obtain ⟨t, rfl⟩ := hs
  exact (List.chain'_append.mp h).1

lemma trim_suffix_prefix (l : List Char) :
    ∃ m, m <:+ l ∧ trim l <+: m := by
  refine ⟨trimLeft l, List.dropWhile_suffix _, ?_⟩
  rw [trim, trimRight_eq]
  exact List.rdropWhile_prefix _ _

lemma trim_mem {c : Char} {l : List Char} (h : c ∈ trim l) : c ∈ l := by
  obtain ⟨m, hm, hp⟩ := trim_suffix_prefix l
  exact hm.sublist.subset (hp.sublist.subset h)

lemma trim_chain {R : Char → Char → Prop} {l : List Char}
    (h : l.Chain' R) : (trim l).Chain' R := by
  obtain ⟨m, hm, hp⟩ := trim_suffix_prefix l
  exact chainOfPrefix hp (chainOfSuffix hm h)

lemma prefixHead {l1 l : List Char} (h : l1 <+: l) :
    ∀ c ∈ l1.head?, c ∈ l.head? := by
  obtain ⟨t, rfl⟩ := h
  intro c hc
  cases l1 with
  | nil => simp at hc
  | cons a r => simpa using hc

lemma trim_head {l : List Char} : ∀ c ∈ (trim l).head?, isWs c = false := by
  intro c hc
  have h2 := @prefixHead (trim l) (trimLeft l)
    (by rw [trim, trimRight_eq]; exact List.rdropWhile_prefix _ _) c hc
  exact dropWhile_head_ws l c h2

lemma trim_getLast {l : List Char} :
    ∀ c ∈ (trim l).getLast?, isWs c = false := by
  intro c hc
  rw [trim, trimRight, List.getLast?_reverse] at hc
  exact dropWhile_head_ws _ c hc

lemma trimLeft_id {l : List Char} (h : ∀ c ∈ l.head?, isWs c = false) :
    trimLeft l = l := by
  cases l with
  | nil => rfl
  | cons a r =>
    have ha := h a (by simp)
    unfold trimLeft
    rw [List.dropWhile_cons, if_neg (by simp [ha])]

lemma trimRight_id {l : List Char} (h : ∀ c ∈ l.getLast?, isWs c = false) :
    trimRight l = l := by
  rw [trimRight_eq]
  refine List.rdropWhile_eq_self_iff.mpr ?_
  intro hl
  have := h (l.getLast hl) (by rw [List.getLast?_eq_getLast _ hl]; rfl)
  simp [this]

lemma trim_id {l : List Char} (h1 : ∀ c ∈ l.head?, isWs c = false)
    (h2 : ∀ c ∈ l.getLast?, isWs c = false) : trim l = l := by
  rw [trim, trimLeft_id h1, trimRight_id h2]

lemma replEll_id : ∀ {l : List Char}, '…' ∉ l → replEll l = l
  | [], _ => rfl
  | a :: r, h => by
    unfold replEll
    rw [if_neg (fun ha => h (by rw [← ha]; exact List.mem_cons_self _ _)),
      replEll_id (fun hr => h (List.mem_cons_of_mem _ hr))]

lemma cleanText_cleaned (x : List Char) : Cleaned (cleanText x) := by
  have hA1 : ∀ c ∈ collapseWs x, isWs c = true → c = ' ' :=
    fun c hc => wsToSpace_allWs c (squeeze_mem hc)
  have hB1 : (collapseWs x).Chain' (fun a b => ¬(a = ' ' ∧ b = ' ')) :=
    squeeze_noDouble _
  have hA2 := mapQuotes_allWs hA1
  have hB2 := mapQuotes_noDouble hB1
  have hC2 := @mapQuotes_no_smart (collapseWs x)
  have hA3 := replEll_allWs hA2
  have hB3 := replEll_noDouble hB2
  have hC3 := replEll_no_smart hC2
  have hD3 := @replEll_no_ell (mapQuotes (collapseWs x))
  refine ⟨?_, ?_, ?_, ?_, ?_, ?_⟩
  · exact fun c hc => hA3 c (trim_mem hc)
  · exact trim_chain hB3
  · exact fun c hc => hC3 c (trim_mem hc)
  · exact fun hc => hD3 (trim_mem hc)
  · exact trim_head
  · exact trim_getLast

lemma cleanText_eq_self {l : List Char} (h : Cleaned l) : cleanText l = l := by
  obtain ⟨hA, hB, hC, hD, hE, hF⟩ := h
  unfold cleanText collapseWs
  rw [wsToSpace_id hA, squeeze_id hB, mapQuotes_id hC, replEll_id hD,
    trim_id hE hF]

/-- C8: the text cleanup function (`cleanText`, identical in
pdf-parser.ts:382-391 and transcript-parser.ts:306-315) is idempotent:
`clean(clean(x)) = clean(x)` for every string `x`. -/
theorem c8_cleanText_idempotent (x : List Char) :
    cleanText (cleanText x) = cleanText x :=
  cleanText_eq_self (cleanText_cleaned x)

/-! ### Filename decoding (pdf-parser.ts:49-90, transcript-parser.ts:54-94) -/

/-- `String.prototype.split(sep)` for a one-character separator, with the
JavaScript boundary behaviour (`"".split → [""]`, trailing separator yields
a trailing empty part). -/
def splitOnC (sep : Char) : List Char → List (List Char)
  | [] => [[]]
  | c :: r =>
    if c = sep then [] :: splitOnC sep r
    else
      match splitOnC sep r with
      | h :: t => (c :: h) :: t
      | [] => [[c]]

/-- `s.padStart(2, "0")`. -/
def padStart2 (l : List Char) : List Char :=
  if 2 ≤ l.length then l else List.replicate (2 - l.length) '0' ++ l

def isDigitB (c : Char) : Bool := decide ('0' ≤ c) && decide (c ≤ '9')

def digitsToNat (l : List Char) : Nat :=
  l.foldl (fun n c => n * 10 + (c.toNat - '0'.toNat)) 0

/-- `parseInt(s, 10)`: skip leading whitespace, optional sign, then a
leading run of decimal digits; `none` models `NaN`. -/
def jsParseInt (s : List Char) : Option Int :=
  let t := trimLeft s
  match t with
  | '-' :: r =>
    let ds := r.takeWhile (fun c => isDigitB c)
    if ds = [] then none else some (-(digitsToNat ds : Int))
  | '+' :: r =>
    let ds := r.takeWhile (fun c => isDigitB c)
    if ds = [] then none else some (digitsToNat ds : Int)
  | r =>
    let ds := r.takeWhile (fun c => isDigitB c)
    if ds = [] then none else some (digitsToNat ds : Int)

/-- Association lookup used for the fixed `Record<string, string>` maps. -/
def lookupStr (k : List Char) : List (List Char × List Char) → Option (List Char)
  | [] => none
  | (a, b) :: r => if k = a then some b else lookupStr k r

/-- `MAP[key] || key` (unknown keys pass through unchanged). -/
def lookupOr (m : List (List Char × List Char)) (k : List Char) : List Char :=
  (lookupStr k m).getD k

def MONTH_MAP : List (List Char × List Char) :=
  [("JAN".toList, "01".toList), ("FEB".toList, "02".toList),
   ("MAR".toList, "03".toList), ("APR".toList, "04".toList),
   ("MAY".toList, "05".toList), ("JUN".toList, "06".toList),
   ("JUL".toList, "07".toList), ("AUG".toList, "08".toList),
   ("SEP".toList, "09".toList), ("OCT".toList, "10".toList),
   ("NOV".toList, "11".toList), ("DEC".toList, "12".toList)]

def SOLUTION_MAP : List (List Char × List Char) :=
  [("ES".toList, "Executive Search".toList),
   ("PS".toList, "Professional Search".toList),
   ("CONSULTING".toList, "Consulting".toList)]

def ACCOUNT_TYPE_MAP : List (List Char × List Char) :=
  [("HOUSE".toList, "House".toList), ("DIAMOND".toList, "Diamond".toList),
   ("MARQUEE".toList, "Marquee".toList), ("REGIONAL".toList, "Regional".toList)]

/-- `MONTH_MAP[monthCode] || "01"`. -/
def monthOf (monthCode : List Char) : List Char :=
  (lookupStr monthCode MONTH_MAP).getD ("01".toList)

/-- `filename.replace(/\.pdf$/i, "")`. -/
def stripPdfSuffix (l : List Char) : List Char :=
  if 4 ≤ l.length ∧ (l.drop (l.length - 4)).map Char.toLower = ".pdf".toList
  then l.take (l.length - 4) else l

/-- `scoreStr = parts[1].replace(/^NPS/, "")`. -/
def stripNPS : List Char → List Char
  | 'N' :: 'P' :: 'S' :: r => r
  | l => l

structure FilenameMetadata where
  reportCode : List Char
  score : Option Int
  region : List Char
  solution : List Char
  accountType : List Char
  monthYear : List Char
deriving DecidableEq

/-- `parseFilenameMetadata` (pdf-parser.ts:49-90).  The JS code throws a
`TypeError` when the filename splits into fewer than 6 `_`-tokens
(`parts[1].replace` resp. `parts[5].slice` on `undefined`); this is the
`none` case.  `score = none` models `NaN`. -/
def parseFilenameMetadata (filename : List Char) : Option FilenameMetadata :=
  let basename := stripPdfSuffix filename
  let parts := splitOnC '_' basename
  match parts.get? 1, parts.get? 5 with
  | some p1, some p5 =>
    some {
      reportCode := (parts.get? 0).getD []
      score := jsParseInt (stripNPS p1)
      region := (parts.get? 2).getD []
      solution := lookupOr SOLUTION_MAP ((parts.get? 3).getD [])
      accountType := lookupOr ACCOUNT_TYPE_MAP ((parts.get? 4).getD [])
      monthYear :=
        ('2' :: '0' :: p5.drop (p5.length - 2)) ++
          '-' :: monthOf (p5.take (p5.length - 2)) }
  | _, _ => none

/-- C9: decoding `"R29_NPS10_NA_CONSULTING_HOUSE_DEC25.pdf"` yields
code R29, score 10, region NA, solution Consulting, account type House,
month-year 2025-12 (spec §8.1). -/
theorem c9_filename_roundtrip :
    parseFilenameMetadata "R29_NPS10_NA_CONSULTING_HOUSE_DEC25.pdf".toList =
      some { reportCode := "R29".toList, score := some 10,
             region := "NA".toList, solution := "Consulting".toList,
             accountType := "House".toList, monthYear := "2025-12".toList } := by
  decide

/-! ### Date and client-field helpers -/

/-- `parseDateField` (pdf-parser.ts:214-226): on exactly three dot-parts,
pad day and month to two chars and prefix the year with `"20"`
unconditionally; otherwise return the input unchanged. -/
def parseDateFieldR (dateStr : List Char) : List Char :=
  if dateStr = [] then []
  else
    match splitOnC '.' dateStr with
    | [d, m, y] => ('2' :: '0' :: y) ++ '-' :: (padStart2 m ++ '-' :: padStart2 d)
    | _ => dateStr

/-- `parseDateField` (transcript-parser.ts:211-227): like the report
version but `"20"` is prefixed only when the year part has two chars. -/
def parseDateFieldT (dateStr : List Char) : List Char :=
  if dateStr = [] then []
  else
    match splitOnC '.' dateStr with
    | [d, m, y] =>
      (if y.length = 2 then '2' :: '0' :: y else y) ++
        '-' :: (padStart2 m ++ '-' :: padStart2 d)
    | _ => dateStr

/-- `"".split(/\s+/)`-style split on maximal whitespace runs (fuelled). -/
def splitWsF : Nat → List Char → List (List Char)
  | 0, _ => [[]]
  | _ + 1, [] => [[]]
  | f + 1, c :: r =>
    if isWs c then [] :: splitWsF f (r.dropWhile (fun x => isWs x))
    else
      match splitWsF f r with
      | h :: t => (c :: h) :: t
      | [] => [[c]]

/-- `name.split(/\s+/)`. -/
def splitWs (l : List Char) : List (List Char) := splitWsF l.length l

/-- `Array.prototype.join(sep)`. -/
def jsJoin (sep : List Char) : List (List Char) → List Char
  | [] => []
  | [x] => x
  | x :: y :: rest => x ++ sep ++ jsJoin sep (y :: rest)

/-- `deduplicateFirstName` (pdf-parser.ts:196-202): collapse an
immediately repeated first word. -/
def deduplicateFirstName (name : List Char) : List Char :=
  let words := splitWs name
  match words with
  | w0 :: w1 :: _ =>
    if w0 = w1 then jsJoin " ".toList (words.drop 1) else name
  | _ => name

structure ParsedClientField where
  clientName : List Char
  clientTitle : List Char
  company : List Char
deriving DecidableEq

/-- `parseClientField` (transcript-parser.ts:183-209): split on commas and
trim; ≥ 3 parts → first/middle-joined/last, exactly 2 → name+company,
otherwise the whole field is the name. -/
def parseClientField (clientField : List Char) : ParsedClientField :=
  let parts := (splitOnC ',' clientField).map trim
  if 3 ≤ parts.length then
    { clientName := (parts.get? 0).getD []
      clientTitle := jsJoin (", ".toList) ((parts.drop 1).dropLast)
      company := parts.getLast?.getD [] }
  else if parts.length = 2 then
    { clientName := (parts.get? 0).getD []
      clientTitle := []
      company := (parts.get? 1).getD [] }
  else
    { clientName := clientField, clientTitle := [], company := [] }

/-- The inline client decomposition of `parsePdfText` (pdf-parser.ts:139-148):
split at the FIRST comma (`indexOf`) into name and company, trim both, then
deduplicate the name; no title is produced. -/
def reportClientSplit (clientField : List Char) : List Char × List Char :=
  if ',' ∈ clientField then
    (deduplicateFirstName (trim (clientField.takeWhile (fun c => c ≠ ','))),
     trim ((clientField.dropWhile (fun c => c ≠ ',')).tail))
  else
    (deduplicateFirstName clientField, [])

/-- `YYYY-MM-DD` shape (all-digit components). -/
def isISODate (l : List Char) : Bool :=
  match l with
  | [a, b, c, d, '-', e, f, '-', g, h] =>
    isDigitB a && isDigitB b && isDigitB c && isDigitB d &&
    isDigitB e && isDigitB f && isDigitB g && isDigitB h
  | _ => false

/-- `YYYY-MM` shape (all-digit components). -/
def isYYYYMM (l : List Char) : Bool :=
  match l with
  | [a, b, c, d, '-', e, f] =>
    isDigitB a && isDigitB b && isDigitB c && isDigitB d &&
    isDigitB e && isDigitB f
  | _ => false

def twoDigitB (l : List Char) : Bool :=
  match l with
  | [a, b] => isDigitB a && isDigitB b
  | _ => false

lemma splitOnC_not_mem {sep : Char} : ∀ {a : List Char},
    sep ∉ a → splitOnC sep a = [a]
  | [], _ => rfl
  | c :: r, h => by
    unfold splitOnC
    rw [if_neg (fun hc => h (by rw [← hc]; exact List.mem_cons_self _ _)),
      splitOnC_not_mem (fun hr => h (List.mem_cons_of_mem _ hr))]

lemma splitOnC_cons (sep c : Char) (r : List Char) :
    splitOnC sep (c :: r) =
      if c = sep then [] :: splitOnC sep r
      else
        match splitOnC sep r with
        | h :: t => (c :: h) :: t
        | [] => [[c]] := rfl

lemma splitOnC_append {sep : Char} : ∀ {a : List Char}, sep ∉ a →
    ∀ (b : List Char), splitOnC sep (a ++ sep :: b) = a :: splitOnC sep b
  | [], _, b => by
    simp only [List.nil_append]
    rw [splitOnC_cons, if_pos rfl]
  | c :: r, h, b => by
    rw [List.cons_append, splitOnC_cons,
      if_neg (fun hc => h (by rw [← hc]; exact List.mem_cons_self _ _)),
      splitOnC_append (fun hr => h (List.mem_cons_of_mem _ hr)) b]

lemma splitOnC_jsJoin {sep : Char} : ∀ {ps : List (List Char)},
    ps ≠ [] → (∀ p ∈ ps, sep ∉ p) →
    splitOnC sep (jsJoin [sep] ps) = ps
  | [], h, _ => absurd rfl h
  | [x], _, hall => by
    unfold jsJoin
    exact splitOnC_not_mem (hall x (List.mem_cons_self _ _))
  | x :: y :: rest, _, hall => by
    show splitOnC sep (x ++ [sep] ++ jsJoin [sep] (y :: rest)) = _
    rw [List.append_assoc, List.singleton_append,
      splitOnC_append (hall x (List.mem_cons_self _ _)),
      splitOnC_jsJoin (List.cons_ne_nil y rest)
        (fun p hp => hall p (List.mem_cons_of_mem _ hp))]

lemma twoDigitB_shape {l : List Char} (h : twoDigitB l = true) :
    ∃ a b, l = [a, b] ∧ isDigitB a = true ∧ isDigitB b = true := by
  match l with
  | [a, b] =>
    rw [twoDigitB, Bool.and_eq_true] at h
    exact ⟨a, b, rfl, h.1, h.2⟩
  | [] => exact absurd h (by decide)
  | [_] => exact absurd h (by simp [twoDigitB])
  | _ :: _ :: _ :: _ => exact absurd h (by simp [twoDigitB])

lemma padStart2_twoDigit {d : List Char} (hlen : d.length = 1 ∨ d.length = 2)
    (hd : ∀ c ∈ d, isDigitB c = true) : twoDigitB (padStart2 d) = true := by
  match d with
  | [a] =>
    have ha := hd a (List.mem_cons_self _ _)
    have h1 : padStart2 [a] = ['0', a] := by simp [padStart2]
    rw [h1, twoDigitB, ha, Bool.and_true]
    decide
  | [a, b] =>
    have ha := hd a (List.mem_cons_self _ _)
    have hb := hd b (List.mem_cons_of_mem _ (List.mem_cons_self _ _))
    have h1 : padStart2 [a, b] = [a, b] := by simp [padStart2]
    rw [h1, twoDigitB, ha, hb]
    rfl
  | [] => simp at hlen
  | a :: b :: c :: r => rcases hlen with h | h <;> simp at h

lemma lookupStr_mem {k v : List Char} : ∀ {m : List (List Char × List Char)},
    lookupStr k m = some v → v ∈ m.map Prod.snd
  | [], h => by simp [lookupStr] at h
  | (a, b) :: r, h => by
    unfold lookupStr at h
    split at h
    · simp only [Option.some.injEq] at h
      rw [← h]
      exact List.mem_cons_self _ _
    · exact List.mem_cons_of_mem _ (lookupStr_mem h)

lemma monthOf_twoDigit (k : List Char) : twoDigitB (monthOf k) = true := by
  unfold monthOf
  cases h : lookupStr k MONTH_MAP with
  | none => decide
  | some v =>
    have hv := lookupStr_mem h
    have hall : ∀ x ∈ MONTH_MAP.map Prod.snd, twoDigitB x = true := by decide
    simpa using hall v hv

lemma digit_ne_dot {c : Char} (h : isDigitB c = true) : c ≠ '.' := by
  intro hc
  rw [hc] at h
  exact absurd h (by decide)

lemma parseDateFieldR_passthrough (dateStr : List Char) (hne : dateStr ≠ [])
    (h3 : (splitOnC '.' dateStr).length ≠ 3) :
    parseDateFieldR dateStr = dateStr := by
  simp only [parseDateFieldR, if_neg hne]
  match hsp : splitOnC '.' dateStr with
  | [] => rfl
  | [_] => rfl
  | [_, _] => rfl
  | [_, _, _] => exact absurd (by simp [hsp]) h3
  | _ :: _ :: _ :: _ :: _ => rfl

lemma parseDateFieldT_passthrough (dateStr : List Char) (hne : dateStr ≠ [])
    (h3 : (splitOnC '.' dateStr).length ≠ 3) :
    parseDateFieldT dateStr = dateStr := by
  simp only [parseDateFieldT, if_neg hne]
  match hsp : splitOnC '.' dateStr with
  | [] => rfl
  | [_] => rfl
  | [_, _] => rfl
  | [_, _, _] => exact absurd (by simp [hsp]) h3
  | _ :: _ :: _ :: _ :: _ => rfl

/-- C4 counterexample: the decoder emits `"20CD-01"` (not `YYYY-MM`) for a
filename whose sixth token does not end in digits, and both date
normalizers pass `"not-a-date"` through unchanged — neither `YYYY-MM-DD`
nor empty. -/
theorem c4_counterexample :
    parseFilenameMetadata "R1_NPS5_NA_ES_HOUSE_ABCD.pdf".toList =
      some { reportCode := "R1".toList, score := some 5, region := "NA".toList,
             solution := "Executive Search".toList, accountType := "House".toList,
             monthYear := "20CD-01".toList } ∧
    isYYYYMM "20CD-01".toList = false ∧
    parseDateFieldR "not-a-date".toList = "not-a-date".toList ∧
    parseDateFieldT "not-a-date".toList = "not-a-date".toList ∧
    isISODate "not-a-date".toList = false ∧
    "not-a-date".toList ≠ [] := by
  refine ⟨by decide, by decide, by decide, by decide, by decide, by decide⟩

/-- C4 (amended): `monthYear` is of the form `YYYY-MM` whenever the
filename's sixth `_`-token ends in two digits; `interviewDate` is
`YYYY-MM-DD` whenever the raw field is a three-part dot-separated numeric
date (day and month of 1-2 digits; year of exactly 2 digits in the report
parser, 2 or 4 digits in the transcript parser), and is empty when the
field is missing; a non-empty raw field that does not split at dots into
exactly three parts is passed through unchanged, and a three-part field is
recombined without validation (`"1.2.3"` becomes `"203-02-01"` in the
report parser). -/
theorem c4_amended_date_formats :
    (∀ (fname pre : List Char) (y1 y2 : Char),
      isDigitB y1 = true → isDigitB y2 = true →
      (splitOnC '_' (stripPdfSuffix fname)).get? 5 = some (pre ++ [y1, y2]) →
      ∃ md, parseFilenameMetadata fname = some md ∧
        isYYYYMM md.monthYear = true) ∧
    (∀ (d m : List Char) (y1 y2 : Char),
      d.length = 1 ∨ d.length = 2 → (∀ c ∈ d, isDigitB c = true) →
      m.length = 1 ∨ m.length = 2 → (∀ c ∈ m, isDigitB c = true) →
      isDigitB y1 = true → isDigitB y2 = true →
      isISODate (parseDateFieldR (d ++ ('.' :: (m ++ ('.' :: [y1, y2]))))) = true) ∧
    (∀ (d m y : List Char),
      d.length = 1 ∨ d.length = 2 → (∀ c ∈ d, isDigitB c = true) →
      m.length = 1 ∨ m.length = 2 → (∀ c ∈ m, isDigitB c = true) →
      y.length = 2 ∨ y.length = 4 → (∀ c ∈ y, isDigitB c = true) →
      isISODate (parseDateFieldT (d ++ ('.' :: (m ++ ('.' :: y))))) = true) ∧
    parseDateFieldR [] = [] ∧ parseDateFieldT [] = [] ∧
    (∀ dateStr : List Char, dateStr ≠ [] →
      (splitOnC '.' dateStr).length ≠ 3 →
      parseDateFieldR dateStr = dateStr ∧
      parseDateFieldT dateStr = dateStr) ∧
    parseDateFieldR "1.2.3".toList = "203-02-01".toList := by
  refine ⟨?_, ?_, ?_, rfl, rfl, ?_, by decide⟩
  rotate_left 3
  · intro ds hne h3
    exact ⟨parseDateFieldR_passthrough ds hne h3,
           parseDateFieldT_passthrough ds hne h3⟩
  · intro fname pre y1 y2 hy1 hy2 h5
    have hlen : 5 < (splitOnC '_' (stripPdfSuffix fname)).length := by
      by_contra hcon
      rw [List.get?_eq_none.mpr (by omega)] at h5
      exact Option.noConfusion h5
    have h1 := @List.get?_eq_get _ (splitOnC '_' (stripPdfSuffix fname))
      1 (by omega)
    simp only [parseFilenameMetadata]
    rw [h1, h5]
    refine ⟨_, rfl, ?_⟩
    have hsub : (pre ++ [y1, y2]).length - 2 = pre.length := by simp
    rw [hsub, List.drop_left]
    obtain ⟨m1, m2, hm, hm1, hm2⟩ := twoDigitB_shape (monthOf_twoDigit
      ((pre ++ [y1, y2]).take pre.length))
    rw [hm]
    show isYYYYMM ['2', '0', y1, y2, '-', m1, m2] = true
    simp only [isYYYYMM]
    rw [hy1, hy2, hm1, hm2]
    decide
  · intro d m y1 y2 hdl hdall hml hmall hy1 hy2
    have hdd : '.' ∉ d := fun hc => digit_ne_dot (hdall _ hc) rfl
    have hdm : '.' ∉ m := fun hc => digit_ne_dot (hmall _ hc) rfl
    have hdy : '.' ∉ [y1, y2] := by
      intro hc
      rcases List.mem_cons.mp hc with h | h
      · exact digit_ne_dot hy1 h.symm
      · rcases List.mem_cons.mp h with h | h
        · exact digit_ne_dot hy2 h.symm
        · exact absurd h (List.not_mem_nil _)
    simp only [parseDateFieldR]
    rw [if_neg (by simp), splitOnC_append hdd, splitOnC_append hdm,
      splitOnC_not_mem hdy]
    obtain ⟨e1, e2, hE, he1, he2⟩ := twoDigitB_shape (padStart2_twoDigit hdl hdall)
    obtain ⟨f1, f2, hF, hf1, hf2⟩ := twoDigitB_shape (padStart2_twoDigit hml hmall)
    show isISODate (('2' :: '0' :: [y1, y2]) ++
      '-' :: (padStart2 m ++ '-' :: padStart2 d)) = true
    rw [hE, hF]
    show isISODate ['2', '0', y1, y2, '-', f1, f2, '-', e1, e2] = true
    simp only [isISODate]
    rw [hy1, hy2, hf1, hf2, he1, he2]
    decide
  · intro d m y hdl hdall hml hmall hyl hyall
    have hdd : '.' ∉ d := fun hc => digit_ne_dot (hdall _ hc) rfl
    have hdm : '.' ∉ m := fun hc => digit_ne_dot (hmall _ hc) rfl
    have hdy : '.' ∉ y := fun hc => digit_ne_dot (hyall _ hc) rfl
    simp only [parseDateFieldT]
    rw [if_neg (by simp), splitOnC_append hdd, splitOnC_append hdm,
      splitOnC_not_mem hdy]
    obtain ⟨e1, e2, hE, he1, he2⟩ := twoDigitB_shape (padStart2_twoDigit hdl hdall)
    obtain ⟨f1, f2, hF, hf1, hf2⟩ := twoDigitB_shape (padStart2_twoDigit hml hmall)
    match y, hyl with
    | [a, b], _ =>
      have ha := hyall a (List.mem_cons_self _ _)
      have hb := hyall b (List.mem_cons_of_mem _ (List.mem_cons_self _ _))
      show isISODate (('2' :: '0' :: [a, b]) ++
        '-' :: (padStart2 m ++ '-' :: padStart2 d)) = true
      rw [hE, hF]
      show isISODate ['2', '0', a, b, '-', f1, f2, '-', e1, e2] = true
      simp only [isISODate]
      rw [ha, hb, hf1, hf2, he1, he2]
      decide
    | [a, b, c, e], _ =>
      have ha := hyall a (by simp)
      have hb := hyall b (by simp)
      have hc := hyall c (by simp)
      have he := hyall e (by simp)
      show isISODate ([a, b, c, e] ++
        '-' :: (padStart2 m ++ '-' :: padStart2 d)) = true
      rw [hE, hF]
      show isISODate [a, b, c, e, '-', f1, f2, '-', e1, e2] = true
      simp only [isISODate]
      rw [ha, hb, hc, he, hf1, hf2, he1, he2]
      decide
    | [], hyl => simp at hyl
    | [_], hyl => simp at hyl
    | [_, _, _], hyl => simp at hyl
    | _ :: _ :: _ :: _ :: _ :: _, hyl => simp at hyl

/-- Witness for `c4_amended_date_formats` at concrete inputs. -/
theorem c4_amended_witness :
    (∃ md, parseFilenameMetadata "R1_NPS6_EMEA_ES_HOUSE_SEP25.pdf".toList =
        some md ∧ isYYYYMM md.monthYear = true) ∧
    isISODate (parseDateFieldR ("02".toList ++
      ('.' :: ("09".toList ++ ('.' :: ['2', '5']))))) = true ∧
    isISODate (parseDateFieldT ("8".toList ++
      ('.' :: ("12".toList ++ ('.' :: "2025".toList))))) = true ∧
    (parseDateFieldR "02/09/2025".toList = "02/09/2025".toList ∧
     parseDateFieldT "02/09/2025".toList = "02/09/2025".toList) :=
  ⟨c4_amended_date_formats.1 _ "SEP".toList '2' '5' (by decide) (by decide)
      (by decide),
   c4_amended_date_formats.2.1 "02".toList "09".toList '2' '5' (by decide)
      (by decide) (by decide) (by decide) (by decide) (by decide),
   c4_amended_date_formats.2.2.1 "8".toList "12".toList "2025".toList
      (by decide) (by decide) (by decide) (by decide) (by decide) (by decide),
   c4_amended_date_formats.2.2.2.2.2.1 "02/09/2025".toList (by decide)
      (by decide)⟩

lemma takeWhile_append_all {p : Char → Bool} : ∀ {a : List Char},
    (∀ c ∈ a, p c = true) → ∀ (b : List Char),
    List.takeWhile p (a ++ b) = a ++ List.takeWhile p b
  | [], _, b => rfl
  | c :: r, h, b => by
    rw [List.cons_append, List.takeWhile_cons,
      if_pos (h c (List.mem_cons_self _ _)),
      takeWhile_append_all (fun x hx => h x (List.mem_cons_of_mem _ hx)) b,
      List.cons_append]

lemma dropWhile_append_all {p : Char → Bool} : ∀ {a : List Char},
    (∀ c ∈ a, p c = true) → ∀ (b : List Char),
    List.dropWhile p (a ++ b) = List.dropWhile p b
  | [], _, b => rfl
  | c :: r, h, b => by
    rw [List.cons_append, List.dropWhile_cons,
      if_pos (h c (List.mem_cons_self _ _)),
      dropWhile_append_all (fun x hx => h x (List.mem_cons_of_mem _ hx)) b]

/-- C5 counterexample: on the client field `"A, B, C"`, the report
assembler's inline decomposition (split at the FIRST comma, pdf-parser.ts
lines 139-148) produces company `"B, C"`, not the last part `"C"` that the
claimed first/middle/last rule requires; the transcript parser follows the
rule. -/
theorem c5_counterexample :
    reportClientSplit "A, B, C".toList = ("A".toList, "B, C".toList) ∧
    parseClientField "A, B, C".toList =
      { clientName := "A".toList, clientTitle := "B".toList,
        company := "C".toList } ∧
    "B, C".toList ≠ "C".toList := by
  refine ⟨by decide, by decide, by decide⟩

/-- C5 (amended): the transcript parser's `parseClientField` follows the
first/middle-joined/last comma rule (≥ 3 parts), the name/company rule
(2 parts) and the name-only rule (1 part).  The report assembler instead
splits at the FIRST comma only: the first part (deduplicated) is the name
and everything after the first comma is the company; it produces no
title. -/
theorem c5_amended_client_decomposition :
    (∀ (p0 plast : List Char) (mid : List (List Char)),
      mid ≠ [] → ',' ∉ p0 → (∀ p ∈ mid, ',' ∉ p) → ',' ∉ plast →
      parseClientField (jsJoin [','] (p0 :: (mid ++ [plast]))) =
        { clientName := trim p0,
          clientTitle := jsJoin (", ".toList) (mid.map trim),
          company := trim plast }) ∧
    (∀ a b : List Char, ',' ∉ a → ',' ∉ b →
      parseClientField (a ++ ',' :: b) =
        { clientName := trim a, clientTitle := [], company := trim b }) ∧
    (∀ a : List Char, ',' ∉ a →
      parseClientField a =
        { clientName := a, clientTitle := [], company := [] }) ∧
    (∀ a rest : List Char, ',' ∉ a →
      reportClientSplit (a ++ ',' :: rest) =
        (deduplicateFirstName (trim a), trim rest)) ∧
    (∀ a : List Char, ',' ∉ a →
      reportClientSplit a = (deduplicateFirstName a, [])) := by
  refine ⟨?_, ?_, ?_, ?_, ?_⟩
  · intro p0 plast mid hmid h0 hmidall hlast
    have hsplit : splitOnC ',' (jsJoin [','] (p0 :: (mid ++ [plast]))) =
        p0 :: (mid ++ [plast]) := by
      refine splitOnC_jsJoin (List.cons_ne_nil _ _) ?_
      intro p hp
      rcases List.mem_cons.mp hp with h | h
      · exact h ▸ h0
      · rcases List.mem_append.mp h with h | h
        · exact hmidall p h
        · rw [List.mem_singleton.mp h]; exact hlast
    simp only [parseClientField, hsplit, List.map_cons, List.map_append,
      List.map_cons, List.map_nil]
    rw [if_pos (by
      simp only [List.length_cons, List.length_append, List.length_map]
      have := List.length_pos.mpr hmid
      omega)]
    have hdrop : ((trim p0 :: (mid.map trim ++ [trim plast])).drop 1).dropLast =
        mid.map trim := by
      simp only [List.drop_one, List.tail_cons]
      exact List.dropLast_concat
    have hlast2 : (trim p0 :: (mid.map trim ++ [trim plast])).getLast? =
        some (trim plast) := by
      rw [← List.cons_append, List.getLast?_concat]
    rw [hdrop, hlast2]
    rfl
  · intro a b ha hb
    have hsplit : splitOnC ',' (a ++ ',' :: b) = [a, b] := by
      rw [splitOnC_append ha, splitOnC_not_mem hb]
    simp only [parseClientField, hsplit, List.map_cons, List.map_nil]
    rw [if_neg (by simp), if_pos (by simp)]
    rfl
  · intro a ha
    have hsplit : splitOnC ',' a = [a] := splitOnC_not_mem ha
    simp only [parseClientField, hsplit, List.map_cons, List.map_nil]
    rw [if_neg (by simp), if_neg (by simp)]
  · intro a rest ha
    have hmem : ',' ∈ a ++ ',' :: rest :=
      List.mem_append.mpr (Or.inr (List.mem_cons_self _ _))
    have hall : ∀ c ∈ a, (fun c => decide (c ≠ ',')) c = true := by
      intro c hc
      simp only [decide_eq_true_eq]
      exact fun h => ha (h ▸ hc)
    simp only [reportClientSplit, if_pos hmem]
    rw [takeWhile_append_all hall, dropWhile_append_all hall]
    rw [List.takeWhile_cons, if_neg (by simp), List.dropWhile_cons,
      if_neg (by simp)]
    simp
  · intro a ha
    simp only [reportClientSplit, if_neg ha]

/-- Witness for `c5_amended_client_decomposition` at concrete inputs. -/
theorem c5_amended_witness :
    parseClientField (jsJoin [','] ("Greg Austin".toList ::
        (["Chief People Officer".toList] ++ ["SYNLAB".toList]))) =
      { clientName := trim "Greg Austin".toList,
        clientTitle := jsJoin (", ".toList)
          (["Chief People Officer".toList].map trim),
        company := trim "SYNLAB".toList } ∧
    reportClientSplit ("Mike Mike Arshinskiy".toList ++ ',' :: " SYNLAB".toList) =
      (deduplicateFirstName (trim "Mike Mike Arshinskiy".toList),
       trim " SYNLAB".toList) :=
  ⟨c5_amended_client_decomposition.1 _ _ _ (by decide) (by decide) (by decide)
      (by decide),
   c5_amended_client_decomposition.2.2.2.1 _ _ (by decide)⟩

/-! ### Header-field extraction (pdf-parser.ts:204-212, transcript-parser.ts:163-175) -/

/-- Match a literal (case-sensitive) prefix, returning the rest. -/
def stripLit : List Char → List Char → Option (List Char)
  | [], t => some t
  | _ :: _, [] => none
  | p :: ps, c :: t => if c = p then stripLit ps t else none

/-- `(.+?)$` at the current position: succeeds iff a non-line-terminator
char is here, capturing everything up to the end of the line (a line ends
before `\n`, `\r`, U+2028 or U+2029, as for JS `.` and `m`-flag `$`). -/
def capLine : List Char → Option (List Char)
  | [] => none
  | c :: r =>
    if isLineTerm c then none
    else some ((c :: r).takeWhile (fun c => !(isLineTerm c)))

/-- Backtracking of the greedy `\s+` (kmin = 1) or `\s*` (kmin = 0)
against `(.+?)$`: try consuming `k` whitespace chars, `k` descending. -/
def bestCap (u : List Char) (kmin : Nat) : Nat → Option (List Char)
  | 0 => if kmin = 0 then capLine u else none
  | k + 1 =>
    if kmin ≤ k + 1 then
      match capLine (u.drop (k + 1)) with
      | some cap => some cap
      | none => bestCap u kmin k
    else none

/-- One attempt of `^{field}\s+(.+?)$` at a line start (the report
parser's only pattern, pdf-parser.ts:206-208), returning `match[1].trim()`. -/
def matchFieldSpaceAt (field t : List Char) : Option (List Char) :=
  match stripLit field t with
  | none => none
  | some u => (bestCap u 1 (u.takeWhile (fun c => isWs c)).length).map trim

/-- One attempt of `^{field}:\s*(.+?)$` at a line start (the transcript
parser's first pattern, transcript-parser.ts:165), returning
`match[1].trim()`. -/
def matchFieldColonAt (field t : List Char) : Option (List Char) :=
  match stripLit field t with
  | some (':' :: u) => (bestCap u 0 (u.takeWhile (fun c => isWs c)).length).map trim
  | _ => none

/-- Skip to just past the next line terminator (the `m`-flag `^` matches
at offset 0 and after each of `\n`, `\r`, U+2028, U+2029). -/
def dropLine : List Char → Option (List Char)
  | [] => none
  | c :: r => if isLineTerm c then some r else dropLine r

/-- Leftmost-match scan of an `m`-flagged `^...` pattern: try every line
start in order (fuelled by the text length). -/
def scanLineStarts (step : List Char → Option (List Char)) :
    Nat → List Char → Option (List Char)
  | 0, t => step t
  | f + 1, t =>
    match step t with
    | some r => some r
    | none =>
      match dropLine t with
      | some rest => scanLineStarts step f rest
      | none => none

/-- `extractHeaderField` (pdf-parser.ts:204-212): single line-anchored
`"{field} value"` pattern, no colon variant; empty string when absent. -/
def extractHeaderFieldR (text field : List Char) : List Char :=
  (scanLineStarts (matchFieldSpaceAt field) (text.length + 1) text).getD []

/-- `extractHeaderField` (transcript-parser.ts:163-175): first the
line-anchored `"{field}: value"` pattern, then the `"{field} value"`
fallback. -/
def extractHeaderFieldT (text field : List Char) : List Char :=
  match scanLineStarts (matchFieldColonAt field) (text.length + 1) text with
  | some v => v
  | none =>
    (scanLineStarts (matchFieldSpaceAt field) (text.length + 1) text).getD []

lemma stripLit_refl : ∀ (p t : List Char), stripLit p (p ++ t) = some t
  | [], t => rfl
  | c :: ps, t => by
    rw [List.cons_append]
    unfold stripLit
    rw [if_pos rfl]
    exact stripLit_refl ps t

lemma capLine_eq {a : Char} {v2 : List Char} (rest : List Char)
    (hn : ∀ c ∈ a :: v2, isLineTerm c = false) :
    capLine ((a :: v2) ++ '\n' :: rest) = some (a :: v2) := by
  have hne : ¬(isLineTerm a = true) := by
    rw [hn a (List.mem_cons_self _ _)]
    simp
  have hall : ∀ c ∈ a :: v2, (fun c => !(isLineTerm c)) c = true := by
    intro c hc
    show (!(isLineTerm c)) = true
    rw [hn c hc]
    rfl
  rw [List.cons_append]
  show (if isLineTerm a then none
    else some ((a :: (v2 ++ '\n' :: rest)).takeWhile
      (fun c => !(isLineTerm c)))) = some (a :: v2)
  rw [if_neg hne]
  congr 1
  rw [← List.cons_append, takeWhile_append_all hall ('\n' :: rest),
    List.takeWhile_cons, if_neg (by decide), List.append_nil]

lemma bestCap_one {u w : List Char} (kmin : Nat) (h : kmin ≤ 1)
    (hc : capLine (u.drop 1) = some w) : bestCap u kmin 1 = some w := by
  show bestCap u kmin (0 + 1) = some w
  unfold bestCap
  rw [if_pos (by omega), hc]

lemma headWs_of {a : Char} {v2 : List Char}
    (hh : ∀ c ∈ (a :: v2).head?, isWs c = false) : isWs a = false :=
  hh a (by simp)

lemma takeWhile_ws_one {a : Char} {v2 rest : List Char} (hh : isWs a = false) :
    ((' ' :: ((a :: v2) ++ '\n' :: rest)).takeWhile (fun c => isWs c)).length
      = 1 := by
  rw [List.takeWhile_cons, if_pos (by decide), List.cons_append,
    List.takeWhile_cons, if_neg (by simp [hh])]
  rfl

lemma colonStep (field : List Char) {a : Char} {v2 : List Char}
    (rest : List Char) (hh : isWs a = false)
    (hl : ∀ c ∈ (a :: v2).getLast?, isWs c = false)
    (hn : ∀ c ∈ a :: v2, isLineTerm c = false) :
    matchFieldColonAt field
      (field ++ ':' :: ' ' :: ((a :: v2) ++ '\n' :: rest)) = some (a :: v2) := by
  unfold matchFieldColonAt
  rw [stripLit_refl]
  show (bestCap (' ' :: ((a :: v2) ++ '\n' :: rest)) 0
    (((' ' :: ((a :: v2) ++ '\n' :: rest)).takeWhile
      (fun c => isWs c)).length)).map trim = some (a :: v2)
  have hcap : capLine ((' ' :: ((a :: v2) ++ '\n' :: rest)).drop 1) =
      some (a :: v2) := capLine_eq rest hn
  rw [takeWhile_ws_one hh, bestCap_one 0 (by omega) hcap]
  simp only [Option.map_some']
  rw [trim_id (by simpa using hh) hl]

lemma spaceStep (field : List Char) {a : Char} {v2 : List Char}
    (rest : List Char) (hh : isWs a = false)
    (hl : ∀ c ∈ (a :: v2).getLast?, isWs c = false)
    (hn : ∀ c ∈ a :: v2, isLineTerm c = false) :
    matchFieldSpaceAt field
      (field ++ ' ' :: ((a :: v2) ++ '\n' :: rest)) = some (a :: v2) := by
  unfold matchFieldSpaceAt
  rw [stripLit_refl]
  show (bestCap (' ' :: ((a :: v2) ++ '\n' :: rest)) 1
    (((' ' :: ((a :: v2) ++ '\n' :: rest)).takeWhile
      (fun c => isWs c)).length)).map trim = some (a :: v2)
  have hcap : capLine ((' ' :: ((a :: v2) ++ '\n' :: rest)).drop 1) =
      some (a :: v2) := capLine_eq rest hn
  rw [takeWhile_ws_one hh, bestCap_one 1 (by omega) hcap]
  simp only [Option.map_some']
  rw [trim_id (by simpa using hh) hl]

lemma scanLineStarts_first {step : List Char → Option (List Char)}
    {t v : List Char} (f : Nat) (h : step t = some v) :
    scanLineStarts step f t = some v := by
  cases f with
  | zero => exact h
  | succ f => simp only [scanLineStarts, h]

/-- C6 counterexample: on a text whose only `Client` line uses a colon
(`"Client: John Smith"`), the report parser's `extractHeaderField` — which
has only the no-colon pattern — returns the empty string, while the
transcript parser's returns the value. -/
theorem c6_counterexample :
    extractHeaderFieldR "Client: John Smith\nEngagement X\n".toList
      "Client".toList = [] ∧
    extractHeaderFieldT "Client: John Smith\nEngagement X\n".toList
      "Client".toList = "John Smith".toList := by
  refine ⟨by decide, by decide⟩

/-- C6 (amended): the transcript parser's `extractHeaderField` tries the
line-anchored `"{field}: value"` pattern and then the `"{field} value"`
fallback, so a leading `"{field}: v"` line — for a single-line value `v`
(no `\n`, `\r`, U+2028 or U+2029) already trimmed at both ends — yields
`v`; the report parser's `extractHeaderField` has only the no-colon
`"{field} value"` pattern, so a leading `"{field} v"` line yields `v`
there but a `"{field}: v"` line does not match. -/
theorem c6_amended_header_field (field v rest : List Char)
    (hne : v ≠ []) (hh : ∀ c ∈ v.head?, isWs c = false)
    (hl : ∀ c ∈ v.getLast?, isWs c = false)
    (hn : ∀ c ∈ v, isLineTerm c = false) :
    extractHeaderFieldT (field ++ ':' :: ' ' :: (v ++ '\n' :: rest))
      field = v ∧
    extractHeaderFieldR (field ++ ' ' :: (v ++ '\n' :: rest)) field = v := by
  match v, hne with
  | a :: v2, _ =>
    have hha := headWs_of hh
    constructor
    · unfold extractHeaderFieldT
      rw [scanLineStarts_first _ (colonStep field rest hha hl hn)]
    · unfold extractHeaderFieldR
      rw [scanLineStarts_first _ (spaceStep field rest hha hl hn)]
      rfl

/-- Witness for `c6_amended_header_field` at concrete inputs. -/
theorem c6_amended_witness :
    extractHeaderFieldT ("Client".toList ++ ':' :: ' ' ::
        ("Greg Austin".toList ++ '\n' :: "Score: 9\n".toList))
      "Client".toList = "Greg Austin".toList ∧
    extractHeaderFieldR ("Client".toList ++ ' ' ::
        ("Greg Austin".toList ++ '\n' :: "Score: 9\n".toList))
      "Client".toList = "Greg Austin".toList :=
  c6_amended_header_field "Client".toList "Greg Austin".toList
    "Score: 9\n".toList (by decide) (by decide) (by decide) (by decide)

/-! ### Section segmentation (pdf-parser.ts:238-303) -/

inductive SKey where
  | overview | whatWentWell | challengesPainPoints | gapsIdentified
  | keyThemes | actionsRecommendations | additionalInsight
deriving DecidableEq

/-- Items of the (deterministic) section-heading regexes: a
case-insensitive literal, a maximal `\s*` run, or an optional single
char.  In every marker pattern each `\s*`/`?` is followed by a
non-whitespace, non-optional char, so JS backtracking is deterministic
and `\s*\n?\s*` collapses to one maximal whitespace run. -/
inductive MItem where
  | lit : List Char → MItem
  | ws : MItem
  | opt : Char → MItem
deriving DecidableEq

/-- Case-insensitive literal match, returning the rest. -/
def litCI : List Char → List Char → Option (List Char)
  | [], t => some t
  | _ :: _, [] => none
  | p :: ps, c :: t => if c.toLower = p.toLower then litCI ps t else none

def runItems : List MItem → List Char → Option (List Char)
  | [], t => some t
  | MItem.lit s :: is, t =>
    match litCI s t with
    | some r => runItems is r
    | none => none
  | MItem.ws :: is, t => runItems is (t.dropWhile (fun c => isWs c))
  | MItem.opt _ :: is, [] => runItems is []
  | MItem.opt c :: is, c' :: r =>
    if c' = c then runItems is r else runItems is (c' :: r)

/-- First (leftmost) match of an item pattern; returns the offset just
past the match (`match.index + match[0].length`, pdf-parser.ts:268). -/
def findItemsEnd (its : List MItem) : List Char → Nat → Option Nat
  | [], i =>
    match runItems its [] with
    | some _ => some i
    | none => none
  | c :: rest, i =>
    match runItems its (c :: rest) with
    | some r => some (i + ((c :: rest).length - r.length))
    | none => findItemsEnd its rest (i + 1)

def sectionMarkers : List (SKey × List MItem) :=
  [(SKey.overview, [MItem.lit "\noverview\n".toList]),
   (SKey.whatWentWell, [MItem.lit "\nwhat went well\n".toList]),
   (SKey.challengesPainPoints,
     [MItem.lit "\nchallenges".toList, MItem.ws, MItem.opt '/', MItem.ws,
      MItem.lit "pain".toList, MItem.ws, MItem.lit "points\n".toList]),
   (SKey.gapsIdentified,
     [MItem.lit "\ngaps identified".toList, MItem.ws, MItem.opt '(',
      MItem.lit "raised by".toList, MItem.ws, MItem.lit "interviewee".toList,
      MItem.opt ')', MItem.lit "\n".toList]),
   (SKey.keyThemes, [MItem.lit "\nkey themes\n".toList]),
   (SKey.actionsRecommendations,
     [MItem.lit "\nactions".toList, MItem.ws, MItem.opt '&', MItem.ws,
      MItem.lit "recommendations\n".toList]),
   (SKey.additionalInsight, [MItem.lit "\nadditional insight\n".toList])]

/-- The `positions` array after the marker loop (pdf-parser.ts:261-272). -/
def markerPositions (text : List Char) : List (SKey × Nat) :=
  sectionMarkers.filterMap (fun kp =>
    (findItemsEnd kp.2 text 0).map (fun e => (kp.1, e)))

/-- `positions.sort((a, b) => a.start - b.start)` (a stable sort;
insertion sort is stable and structurally recursive). -/
def sortedPositions (text : List Char) : List (SKey × Nat) :=
  List.insertionSort (fun a b => a.2 ≤ b.2) (markerPositions text)

structure SectionSpan where
  key : SKey
  start : Nat
  stop : Nat
deriving DecidableEq

/-- End-offset assignment (pdf-parser.ts:278-281): each span ends at the
next span's start, the last at `text.length`. -/
def spansOf : List (SKey × Nat) → Nat → List SectionSpan
  | [], _ => []
  | [(k, s)], len => [{ key := k, start := s, stop := len }]
  | (k, s) :: (k', s') :: rest, len =>
    { key := k, start := s, stop := s' } :: spansOf ((k', s') :: rest) len

def sectionSpans (text : List Char) : List SectionSpan :=
  spansOf (sortedPositions text) text.length

/-- `text.substring(a, b)` (JS swaps the bounds when `a > b`). -/
def jsSubstring (l : List Char) (a b : Nat) : List Char :=
  (l.take (max a b)).drop (min a b)

/-- `sectionTexts[key] || ""` (pdf-parser.ts:284-301). -/
def sectionTextFor (text : List Char) (spans : List SectionSpan)
    (k : SKey) : List Char :=
  match spans.find? (fun sp => sp.key = k) with
  | some sp => trim (jsSubstring text sp.start sp.stop)
  | none => []

/-- The marker pattern registered for a section key. -/
def markerFor (k : SKey) : List MItem :=
  ((sectionMarkers.find? (fun kp => decide (kp.1 = k))).map Prod.snd).getD []

lemma markers_markerFor : ∀ kp ∈ sectionMarkers, kp.2 = markerFor kp.1 := by
  decide

lemma spansOf_key_mem : ∀ (ps : List (SKey × Nat)) (len : Nat)
    (sp : SectionSpan), sp ∈ spansOf ps len → ∃ s, (sp.key, s) ∈ ps
  | [], _, _, h => absurd h (by simp [spansOf])
  | [(k, s)], len, sp, h => by
    simp only [spansOf, List.mem_singleton] at h
    subst h
    exact ⟨s, by simp⟩
  | (k, s) :: (k', s') :: rest, len, sp, h => by
    simp only [spansOf, List.mem_cons] at h
    cases h with
    | inl h =>
      subst h
      exact ⟨s, List.mem_cons_self _ _⟩
    | inr h =>
      obtain ⟨t, ht⟩ := spansOf_key_mem ((k', s') :: rest) len sp h
      exact ⟨t, List.mem_cons_of_mem _ ht⟩

/-- A key whose marker pattern matches nowhere gets the `""` default of
`sectionTexts[key] || ""`. -/
lemma sectionTextFor_of_unfound (text : List Char) (k : SKey)
    (h : findItemsEnd (markerFor k) text 0 = none) :
    sectionTextFor text (sectionSpans text) k = [] := by
  rw [sectionTextFor]
  cases hf : (sectionSpans text).find? (fun sp => sp.key = k) with
  | none => rfl
  | some sp =>
    exfalso
    have hmem := List.mem_of_find?_eq_some hf
    have hp := List.find?_some hf
    have hkey : sp.key = k := by simpa using hp
    rw [sectionSpans] at hmem
    obtain ⟨pos, hs⟩ :=
      spansOf_key_mem (sortedPositions text) text.length sp hmem
    rw [sortedPositions] at hs
    have hmp : (sp.key, pos) ∈ markerPositions text :=
      (List.perm_insertionSort (fun a b => a.2 ≤ b.2)
        (markerPositions text)).mem_iff.mp hs
    rw [markerPositions] at hmp
    obtain ⟨kp, hkpmem, hkp⟩ := List.mem_filterMap.mp hmp
    cases he : findItemsEnd kp.2 text 0 with
    | none => rw [he] at hkp; exact Option.noConfusion hkp
    | some e =>
      rw [he] at hkp
      simp only [Option.map_some', Option.some.injEq, Prod.mk.injEq] at hkp
      obtain ⟨hk1, -⟩ := hkp
      rw [markers_markerFor kp hkpmem, hk1, hkey] at he
      rw [he] at h
      exact Option.noConfusion h

lemma litCI_len : ∀ {p t r : List Char}, litCI p t = some r → r.length ≤ t.length
  | [], _, _, h => by
    rw [litCI] at h
    simp only [Option.some.injEq] at h
    exact le_of_eq (congrArg List.length h.symm)
  | _ :: _, [], _, h => by rw [litCI] at h; exact Option.noConfusion h
  | p :: ps, c :: t, r, h => by
    rw [litCI] at h
    split at h
    · have := litCI_len h
      simp only [List.length_cons]
      omega
    · exact Option.noConfusion h

lemma runItems_len : ∀ {its : List MItem} {t r : List Char},
    runItems its t = some r → r.length ≤ t.length
  | [], t, r, h => by
    rw [runItems] at h
    simp only [Option.some.injEq] at h
    exact le_of_eq (congrArg List.length h.symm)
  | MItem.lit s :: is, t, r, h => by
    rw [runItems] at h
    split at h
    · next u hu =>
      exact le_trans (runItems_len h) (litCI_len hu)
    · exact Option.noConfusion h
  | MItem.ws :: is, t, r, h => by
    rw [runItems] at h
    exact le_trans (runItems_len h) (List.dropWhile_suffix _).length_le
  | MItem.opt c :: is, [], r, h => by
    rw [runItems] at h
    exact runItems_len h
  | MItem.opt c :: is, c' :: u, r, h => by
    rw [runItems] at h
    split at h
    · have := runItems_len h
      simp only [List.length_cons]
      omega
    · exact runItems_len h

lemma findItemsEnd_le {its : List MItem} : ∀ {t : List Char} {i e : Nat},
    findItemsEnd its t i = some e → e ≤ i + t.length
  | [], i, e, h => by
    rw [findItemsEnd] at h
    split at h
    · simp only [Option.some.injEq] at h
      omega
    · exact Option.noConfusion h
  | c :: rest, i, e, h => by
    rw [findItemsEnd] at h
    split at h
    · simp only [Option.some.injEq, List.length_cons] at h
      simp only [List.length_cons]
      omega
    · have := findItemsEnd_le h
      simp only [List.length_cons]
      omega

lemma markerPositions_le {text : List Char} :
    ∀ p ∈ markerPositions text, p.2 ≤ text.length := by
  intro p hp
  obtain ⟨kp, _, hkp⟩ := List.mem_filterMap.mp hp
  obtain ⟨e, he, hpe⟩ := Option.map_eq_some'.mp hkp
  have := findItemsEnd_le he
  rw [← hpe]
  simpa using this

instance : IsTotal (SKey × Nat) (fun a b => a.2 ≤ b.2) :=
  ⟨fun a b => Nat.le_total a.2 b.2⟩

instance : IsTrans (SKey × Nat) (fun a b => a.2 ≤ b.2) :=
  ⟨fun _ _ _ h1 h2 => Nat.le_trans h1 h2⟩

lemma sortedPositions_chain (text : List Char) :
    (sortedPositions text).Chain' (fun a b => a.2 ≤ b.2) :=
  (List.sorted_insertionSort _ _).chain'

lemma sortedPositions_le {text : List Char} :
    ∀ p ∈ sortedPositions text, p.2 ≤ text.length := by
  intro p hp
  exact markerPositions_le p ((List.perm_insertionSort _ _).mem_iff.mp hp)

lemma spansOf_cons2 (k : SKey) (s : Nat) (k' : SKey) (s' : Nat)
    (rest : List (SKey × Nat)) (len : Nat) :
    spansOf ((k, s) :: (k', s') :: rest) len =
      ⟨k, s, s'⟩ :: spansOf ((k', s') :: rest) len := rfl

lemma spansOf_head_shape (k : SKey) (s : Nat) (rest : List (SKey × Nat))
    (len : Nat) : ∃ e, spansOf ((k, s) :: rest) len =
      ⟨k, s, e⟩ :: spansOf rest len := by
  match rest with
  | [] => exact ⟨len, rfl⟩
  | (k', s') :: rest2 => exact ⟨s', rfl⟩

lemma spansOf_chain : ∀ (ps : List (SKey × Nat)) (len : Nat),
    (spansOf ps len).Chain' (fun a b => a.stop = b.start)
  | [], _ => List.chain'_nil
  | [(k, s)], len => List.chain'_singleton _
  | (k, s) :: (k', s') :: rest, len => by
    obtain ⟨e, he⟩ := spansOf_head_shape k' s' rest len
    rw [spansOf_cons2, he]
    refine List.chain'_cons.mpr ⟨rfl, ?_⟩
    rw [← he]
    exact spansOf_chain ((k', s') :: rest) len

lemma spansOf_bounds : ∀ {ps : List (SKey × Nat)} {len : Nat},
    ps.Chain' (fun a b => a.2 ≤ b.2) → (∀ p ∈ ps, p.2 ≤ len) →
    ∀ sp ∈ spansOf ps len, sp.start ≤ sp.stop ∧ sp.stop ≤ len
  | [], _, _, _ => by intro sp hsp; simp [spansOf] at hsp
  | [(k, s)], len, hc, hb => by
    intro sp hsp
    rw [spansOf] at hsp
    rcases List.mem_cons.mp hsp with h | h
    · subst h
      exact ⟨hb (k, s) (List.mem_cons_self _ _), le_refl _⟩
    · simp [spansOf] at h
  | (k, s) :: (k', s') :: rest, len, hc, hb => by
    intro sp hsp
    rw [spansOf_cons2] at hsp
    rcases List.mem_cons.mp hsp with h | h
    · subst h
      exact ⟨(List.chain'_cons.mp hc).1, hb (k', s') (by simp)⟩
    · exact spansOf_bounds hc.tail
        (fun p hp => hb p (List.mem_cons_of_mem _ hp)) sp h

lemma jsSubstring_to_end {l : List Char} {a : Nat} (h : a ≤ l.length) :
    jsSubstring l a l.length = l.drop a := by
  unfold jsSubstring
  rw [Nat.max_eq_right h, Nat.min_eq_left h, List.take_length]

lemma slice_glue {l : List Char} {a b : Nat} (hab : a ≤ b)
    (_hb : b ≤ l.length) : jsSubstring l a b ++ l.drop b = l.drop a := by
  unfold jsSubstring
  rw [Nat.max_eq_right hab, Nat.min_eq_left hab, List.drop_take]
  have hd : l.drop b = (l.drop a).drop (b - a) := by
    rw [List.drop_drop]
    congr 1
    omega
  rw [hd, List.take_append_drop]

lemma spansOf_join : ∀ {ps : List (SKey × Nat)} {text : List Char},
    ps.Chain' (fun a b => a.2 ≤ b.2) → (∀ p ∈ ps, p.2 ≤ text.length) →
    ∀ kp, ps.head? = some kp →
    ((spansOf ps text.length).map
      (fun sp => jsSubstring text sp.start sp.stop)).flatten = text.drop kp.2
  | [], _, _, _, kp, h => by simp at h
  | [(k, s)], text, hc, hb, kp, h => by
    simp only [List.head?_cons, Option.some.injEq] at h
    subst h
    rw [spansOf]
    simp only [List.map_cons, List.map_nil, List.flatten_cons, List.flatten_nil,
      List.append_nil]
    exact jsSubstring_to_end (hb (k, s) (by simp))
  | (k, s) :: (k', s') :: rest, text, hc, hb, kp, h => by
    simp only [List.head?_cons, Option.some.injEq] at h
    subst h
    rw [spansOf_cons2, List.map_cons, List.flatten_cons]
    have hIH := @spansOf_join ((k', s') :: rest) text hc.tail
      (fun p hp => hb p (List.mem_cons_of_mem _ hp)) (k', s') rfl
    rw [hIH]
    exact slice_glue (List.chain'_cons.mp hc).1 (hb (k', s') (by simp))

lemma spansOf_last : ∀ (ps : List (SKey × Nat)) (len : Nat), ps ≠ [] →
    ∃ spl, (spansOf ps len).getLast? = some spl ∧ spl.stop = len
  | [], _, h => absurd rfl h
  | [(k, s)], len, _ => ⟨⟨k, s, len⟩, rfl, rfl⟩
  | (k, s) :: (k', s') :: rest, len, _ => by
    obtain ⟨spl, h1, h2⟩ := spansOf_last ((k', s') :: rest) len (by simp)
    refine ⟨spl, ?_, h2⟩
    obtain ⟨e, he⟩ := spansOf_head_shape k' s' rest len
    rw [spansOf_cons2, he, List.getLast?_cons_cons, ← he]
    exact h1

/-- C1: the discovered section spans are contiguous (each span's end is
the next span's start), non-overlapping (`start ≤ stop ≤ text.length`),
and the concatenation of all span substrings in offset order is exactly
the substring of the text from the first matched heading's end offset
through end-of-text (the last span always ends at `text.length`). -/
theorem c1_section_spans_partition (text : List Char) :
    ((sectionSpans text).Chain' (fun a b => a.stop = b.start)) ∧
    (∀ sp ∈ sectionSpans text, sp.start ≤ sp.stop ∧ sp.stop ≤ text.length) ∧
    (∀ sp0, (sectionSpans text).head? = some sp0 →
      ((sectionSpans text).map
        (fun sp => jsSubstring text sp.start sp.stop)).flatten
          = text.drop sp0.start ∧
      ∃ spl, (sectionSpans text).getLast? = some spl ∧
        spl.stop = text.length) := by
  refine ⟨spansOf_chain _ _,
    spansOf_bounds (sortedPositions_chain text) sortedPositions_le, ?_⟩
  intro sp0 hsp0
  match hps : sortedPositions text with
  | [] => rw [sectionSpans, hps] at hsp0; exact absurd hsp0 (by simp [spansOf])
  | (k, s) :: rest =>
    have hchain := sortedPositions_chain text
    have hle := @sortedPositions_le text
    rw [hps] at hchain hle
    have hstart : sp0.start = s := by
      obtain ⟨e, he⟩ := spansOf_head_shape k s rest text.length
      rw [sectionSpans, hps, he] at hsp0
      simp only [List.head?_cons, Option.some.injEq] at hsp0
      rw [← hsp0]
    constructor
    · rw [sectionSpans, hps, hstart]
      exact spansOf_join hchain hle (k, s) rfl
    · rw [sectionSpans, hps]
      exact spansOf_last _ _ (by simp)

/-- Witness for `c1_section_spans_partition` on a two-section report
text: spans `[(11, 27), (27, 31)]`, whose slices rebuild
`text.drop 11`. -/
theorem c1_witness :
    (sectionSpans "T\nOverview\nAAAA\nKey Themes\nBBBB".toList).head? =
      some { key := SKey.overview, start := 11, stop := 27 } ∧
    ((sectionSpans "T\nOverview\nAAAA\nKey Themes\nBBBB".toList).map
      (fun sp => jsSubstring "T\nOverview\nAAAA\nKey Themes\nBBBB".toList
        sp.start sp.stop)).flatten
      = "T\nOverview\nAAAA\nKey Themes\nBBBB".toList.drop 11 :=
  ⟨by decide,
   ((c1_section_spans_partition "T\nOverview\nAAAA\nKey Themes\nBBBB".toList).2.2
      { key := SKey.overview, start := 11, stop := 27 } (by decide)).1⟩

/-! ### Bullet splitting (pdf-parser.ts:316-380) -/

def isUpperB (c : Char) : Bool := decide ('A' ≤ c) && decide (c ≤ 'Z')

def isAlphaB (c : Char) : Bool :=
  isUpperB c || (decide ('a' ≤ c) && decide (c ≤ 'z'))

/-- The heading-interior char class `[A-Za-z\s,/&'()\[\]‘’–—-]`. -/
def inHeadClass (c : Char) : Bool :=
  isAlphaB c || isWs c ||
  c ∈ [',', '/', '&', '\'', '(', ')', '[', ']', '‘', '’', '–', '—', '-']

/-- The heading terminator `(?:\.\s|:\s|\s[–—―–-]\s)` (alternatives are
distinguished by their first char, so first-match order is respected). -/
def termLen : List Char → Option Nat
  | '.' :: c :: _ => if isWs c then some 2 else none
  | ':' :: c :: _ => if isWs c then some 2 else none
  | a :: b :: c :: _ =>
    if isWs a && (b ∈ ['–', '—', '―', '-']) && isWs c then some 3 else none
  | _ => none

/-- The lazy `{8,118}?` quantifier over the heading class: smallest
`k ∈ [8,118]` such that the first `k` chars are in the class and a
terminator follows.  Returns `(k, terminator length)`. -/
def lazyGroup : Nat → List Char → Option (Nat × Nat)
  | k, t =>
    if 118 < k then none
    else
      match (if 8 ≤ k then termLen t else none) with
      | some tl => some (k, tl)
      | none =>
        match t with
        | [] => none
        | c :: r => if inHeadClass c then lazyGroup (k + 1) r else none

/-- The capture group `[A-Z][A-Za-z]C{8,118}?T` at this position; the
result is the group length (the capture includes the terminator). -/
def matchGroupAt : List Char → Option Nat
  | c0 :: c1 :: rest =>
    if isUpperB c0 && isAlphaB c1 then
      (lazyGroup 0 rest).map (fun kt => 2 + kt.1 + kt.2)
    else none
  | _ => none

/-- One attempt of the heading pattern
`(?:^|[."”“]\s+)(GROUP)` at this position; `atStart` marks string offset
0 (where `^` can match; it is preferred).  Returns
(prefix length, group length).  The greedy `\s+` is deterministic because
the group starts with `[A-Z]`. -/
def tryHeadAt (atStart : Bool) (t : List Char) : Option (Nat × Nat) :=
  match (if atStart then (matchGroupAt t).map (fun g => (0, g)) else none) with
  | some r => some r
  | none =>
    match t with
    | p :: r =>
      if p ∈ ['.', '"', '”', '“'] then
        let w := (r.takeWhile (fun c => isWs c)).length
        if w = 0 then none
        else (matchGroupAt (r.drop w)).map (fun g => (1 + w, g))
      else none
    | [] => none

/-- The `headingPattern.exec` loop (pdf-parser.ts:347-361): leftmost
matches, `lastIndex` advancing past each whole match; collects
`(headingStart, headingChars)` where `headingStart = match.index +
match[0].indexOf(match[1])`.  Fuelled by the text length (each step
consumes at least one char). -/
def scanHeadsF : Nat → List Char → Nat → Bool → List (Nat × List Char)
  | 0, _, _, _ => []
  | _ + 1, [], _, _ => []
  | f + 1, t@(_ :: rest), i, atStart =>
    match tryHeadAt atStart t with
    | some (pl, gl) =>
      (i + pl, (t.drop pl).take gl) ::
        scanHeadsF f (t.drop (pl + gl)) (i + pl + gl) false
    | none => scanHeadsF f rest (i + 1) false

def scanHeads (t : List Char) : List (Nat × List Char) :=
  scanHeadsF t.length t 0 true

def NON_HEADING_STARTERS : List (List Char) :=
  ["They", "And", "The", "But", "It", "We", "He", "She", "That", "This",
   "However", "Also", "Not", "For", "As", "If", "When", "Where", "While",
   "Although", "Because", "Since", "Or", "So", "Yet", "Both", "Each",
   "Over", "From", "With", "Into", "After", "Before", "Upon"].map
    String.toList

/-- `headingText.split(/[\s,]/)[0]`. -/
def firstWordOf (l : List Char) : List Char :=
  l.takeWhile (fun c => !(isWs c || c = ','))

/-- The accepted split points (pdf-parser.ts:344-361): stoplisted
headings are skipped (but the regex cursor still advanced past them),
and offset 0 is never pushed. -/
def detectSplits (joined : List Char) : List Nat :=
  (scanHeads joined).filterMap (fun hs =>
    if NON_HEADING_STARTERS.contains (firstWordOf hs.2) then none
    else if 0 < hs.1 then some hs.1 else none)

def splitsOf (joined : List Char) : List Nat := 0 :: detectSplits joined

/-- The flattened one-line section text
`text.replace(/\n/g, " ").replace(/\s+/g, " ").trim()`. -/
def joinedOf (text : List Char) : List Char :=
  trim (collapseWs (text.map (fun c => if c = '\n' then ' ' else c)))

/-- The slicing loop (pdf-parser.ts:363-372): chunks between consecutive
split points (the last runs to the end), each trimmed. -/
def bulletChunks (joined : List Char) : List Nat → List (List Char)
  | [] => []
  | [s] => [trim (jsSubstring joined s joined.length)]
  | s :: s' :: rest =>
    trim (jsSubstring joined s s') :: bulletChunks joined (s' :: rest)

/-- `splitBulletPoints` (pdf-parser.ts:316-380). -/
def splitBulletPoints (text : List Char) : List (List Char) :=
  if trim text = [] then []
  else
    let joined := joinedOf text
    let points := (bulletChunks joined (splitsOf joined)).filterMap
      (fun chunk =>
        if 10 < chunk.length then some (cleanText chunk) else none)
    if points = [] ∧ 10 < joined.length then [cleanText joined] else points

lemma trim_trim (l : List Char) : trim (trim l) = trim l :=
  trim_id trim_head trim_getLast

lemma joinedOf_trimmed (text : List Char) :
    trim (joinedOf text) = joinedOf text := trim_trim _

lemma jsSubstring_zero_len (l : List Char) : jsSubstring l 0 l.length = l := by
  unfold jsSubstring
  rw [Nat.max_eq_right (Nat.zero_le _), Nat.min_eq_left (Nat.zero_le _),
    List.take_length, List.drop_zero]

/-- C2 counterexample: `"Hello"` is a non-empty section text in which the
splitter detects zero bullet boundaries, yet `splitBulletPoints` returns
the empty array (the flattened text has length ≤ 10, so both the
`> 10`-filter and the fallback reject it). -/
theorem c2_counterexample :
    trim "Hello".toList ≠ [] ∧
    detectSplits (joinedOf "Hello".toList) = [] ∧
    splitBulletPoints "Hello".toList = [] := by
  refine ⟨by decide, by decide, by decide⟩

/-- C2 (amended): when zero bullet boundaries are detected, a section
whose flattened text is longer than 10 characters becomes exactly one
bullet (its cleaned full text); a non-empty section of 10 characters or
fewer yields the empty array instead. -/
theorem c2_amended_no_boundary_fallback (text : List Char)
    (hne : trim text ≠ []) (hnb : detectSplits (joinedOf text) = []) :
    (10 < (joinedOf text).length →
      splitBulletPoints text = [cleanText (joinedOf text)]) ∧
    ((joinedOf text).length ≤ 10 → splitBulletPoints text = []) := by
  have hchunks : bulletChunks (joinedOf text) (splitsOf (joinedOf text)) =
      [joinedOf text] := by
    rw [splitsOf, hnb, bulletChunks, jsSubstring_zero_len, joinedOf_trimmed]
  constructor
  · intro hlen
    have hpoints : (bulletChunks (joinedOf text)
        (splitsOf (joinedOf text))).filterMap
        (fun chunk =>
          if 10 < chunk.length then some (cleanText chunk) else none) =
        [cleanText (joinedOf text)] := by
      rw [hchunks]
      simp [hlen]
    simp only [splitBulletPoints]
    rw [if_neg hne, hpoints, if_neg (by simp)]
  · intro hlen
    have hnlt : ¬(10 < (joinedOf text).length) := by omega
    have hpoints : (bulletChunks (joinedOf text)
        (splitsOf (joinedOf text))).filterMap
        (fun chunk =>
          if 10 < chunk.length then some (cleanText chunk) else none) =
        [] := by
      rw [hchunks]
      simp [hnlt]
    simp only [splitBulletPoints]
    rw [if_neg hne, hpoints, if_neg (by simp [hnlt])]

/-- Witness for `c2_amended_no_boundary_fallback`: one text over the
10-char threshold, one under it. -/
theorem c2_amended_witness :
    splitBulletPoints "An insight about culture fit".toList =
      [cleanText (joinedOf "An insight about culture fit".toList)] ∧
    splitBulletPoints "Hi all".toList = [] :=
  ⟨(c2_amended_no_boundary_fallback "An insight about culture fit".toList
      (by decide) (by decide)).1 (by decide),
   (c2_amended_no_boundary_fallback "Hi all".toList
      (by decide) (by decide)).2 (by decide)⟩

lemma replEll_len : ∀ (l : List Char), l.length ≤ (replEll l).length
  | [] => le_refl _
  | c :: r => by
    unfold replEll
    split
    · have := replEll_len r
      simp only [List.length_cons]
      omega
    · have := replEll_len r
      simp only [List.length_cons]
      omega

lemma quoteSub_nonWs {c : Char} (h : isWs c = false) :
    isWs (quoteSub c) = false := by
  by_cases h1 : c = '“'
  · subst h1; decide
  by_cases h2 : c = '”'
  · subst h2; decide
  by_cases h3 : c = '‘'
  · subst h3; decide
  by_cases h4 : c = '’'
  · subst h4; decide
  rwa [quoteSub_eq_self h1 h2 h3 h4]

lemma mapQuotes_head_nonWs {l : List Char}
    (h : ∀ c ∈ l.head?, isWs c = false) :
    ∀ c ∈ (mapQuotes l).head?, isWs c = false := by
  intro c hc
  cases l with
  | nil => simp [mapQuotes] at hc
  | cons a r =>
    simp only [mapQuotes, List.map_cons, List.head?_cons, Option.mem_def,
      Option.some.injEq] at hc
    rw [← hc]
    exact quoteSub_nonWs (h a (by simp))

lemma mapQuotes_getLast_nonWs {l : List Char}
    (h : ∀ c ∈ l.getLast?, isWs c = false) :
    ∀ c ∈ (mapQuotes l).getLast?, isWs c = false := by
  intro c hc
  rw [mapQuotes, List.getLast?_map] at hc
  match hl : l.getLast? with
  | none => rw [hl] at hc; simp at hc
  | some d =>
    rw [hl] at hc
    simp only [Option.map_some', Option.mem_def, Option.some.injEq] at hc
    rw [← hc]
    exact quoteSub_nonWs (h d (by rw [hl]; rfl))

lemma replEll_ne_nil (c : Char) (r : List Char) : replEll (c :: r) ≠ [] := by
  unfold replEll
  split
  · exact List.cons_ne_nil _ _
  · exact List.cons_ne_nil _ _

lemma getLast?_cons_ne {x : Char} {L : List Char} (h : L ≠ []) :
    (x :: L).getLast? = L.getLast? := by
  match L with
  | [] => exact absurd rfl h
  | a :: r => exact List.getLast?_cons_cons

lemma replEll_getLast : ∀ {l : List Char},
    ∀ b ∈ (replEll l).getLast?, b = '.' ∨ b ∈ l.getLast?
  | [], b, h => by simp [replEll] at h
  | [c], b, h => by
    unfold replEll at h
    split at h
    · simp only [replEll, List.getLast?_cons_cons] at h
      simp only [List.getLast?_singleton, Option.mem_def, Option.some.injEq] at h
      exact Or.inl h.symm
    · simp only [replEll] at h
      simp only [List.getLast?_singleton, Option.mem_def, Option.some.injEq] at h
      exact Or.inr (by simp [← h])
  | c :: d :: r, b, h => by
    have hne := replEll_ne_nil d r
    unfold replEll at h
    split at h
    · rw [getLast?_cons_ne (by simp), getLast?_cons_ne (by simp),
        getLast?_cons_ne hne] at h
      rcases replEll_getLast b h with h1 | h1
      · exact Or.inl h1
      · exact Or.inr (by rwa [List.getLast?_cons_cons])
    · rw [getLast?_cons_ne hne] at h
      rcases replEll_getLast b h with h1 | h1
      · exact Or.inl h1
      · exact Or.inr (by rwa [List.getLast?_cons_cons])

lemma replEll_head_nonWs {l : List Char}
    (h : ∀ c ∈ l.head?, isWs c = false) :
    ∀ c ∈ (replEll l).head?, isWs c = false := by
  intro c hc
  rcases replEll_head hc with h1 | h1
  · rw [h1]; decide
  · exact h c h1

lemma replEll_getLast_nonWs {l : List Char}
    (h : ∀ c ∈ l.getLast?, isWs c = false) :
    ∀ c ∈ (replEll l).getLast?, isWs c = false := by
  intro c hc
  rcases replEll_getLast c hc with h1 | h1
  · rw [h1]; decide
  · exact h c h1

lemma collapseWs_id {l : List Char}
    (h1 : ∀ c ∈ l, isWs c = true → c = ' ')
    (h2 : l.Chain' (fun a b => ¬(a = ' ' ∧ b = ' '))) : collapseWs l = l := by
  unfold collapseWs
  rw [wsToSpace_id h1, squeeze_id h2]

/-- On an already whitespace-collapsed, trimmed string, `cleanText` can
only grow the length (quote substitution is 1-to-1, the ellipsis becomes
three dots, and the trim is a no-op). -/
lemma cleanText_len_ge {l : List Char}
    (h1 : ∀ c ∈ l, isWs c = true → c = ' ')
    (h2 : l.Chain' (fun a b => ¬(a = ' ' ∧ b = ' ')))
    (h3 : ∀ c ∈ l.head?, isWs c = false)
    (h4 : ∀ c ∈ l.getLast?, isWs c = false) :
    l.length ≤ (cleanText l).length := by
  unfold cleanText
  rw [collapseWs_id h1 h2,
    trim_id (replEll_head_nonWs (mapQuotes_head_nonWs h3))
      (replEll_getLast_nonWs (mapQuotes_getLast_nonWs h4))]
  calc l.length = (mapQuotes l).length := (List.length_map _ _).symm
    _ ≤ (replEll (mapQuotes l)).length := replEll_len _

lemma chunk_invariants {j : List Char}
    (h1 : ∀ c ∈ j, isWs c = true → c = ' ')
    (h2 : j.Chain' (fun a b => ¬(a = ' ' ∧ b = ' '))) (a b : Nat) :
    (trim (jsSubstring j a b)).length ≤
      (cleanText (trim (jsSubstring j a b))).length := by
  have hsub1 : ∀ c ∈ jsSubstring j a b, isWs c = true → c = ' ' :=
    fun c hc => h1 c (List.take_subset _ _ (List.drop_subset _ _ hc))
  have hsub2 : (jsSubstring j a b).Chain'
      (fun a b => ¬(a = ' ' ∧ b = ' ')) :=
    chainOfSuffix (List.drop_suffix _ _)
      (chainOfPrefix (List.take_prefix _ _) h2)
  exact cleanText_len_ge (fun c hc => hsub1 c (trim_mem hc))
    (trim_chain hsub2) trim_head trim_getLast

lemma bulletChunks_shape {j : List Char} : ∀ {ss : List Nat}
    {ch : List Char}, ch ∈ bulletChunks j ss →
    ∃ a b, ch = trim (jsSubstring j a b)
  | [], _, h => by simp [bulletChunks] at h
  | [s], ch, h => by
    rw [bulletChunks] at h
    simp only [List.mem_singleton] at h
    exact ⟨s, j.length, h⟩
  | s :: s' :: rest, ch, h => by
    rw [bulletChunks] at h
    rcases List.mem_cons.mp h with h1 | h1
    · exact ⟨s, s', h1⟩
    · exact bulletChunks_shape h1

lemma joinedOf_allWs (text : List Char) :
    ∀ c ∈ joinedOf text, isWs c = true → c = ' ' := by
  intro c hc
  exact wsToSpace_allWs c (squeeze_mem (trim_mem hc))

lemma joinedOf_chain (text : List Char) :
    (joinedOf text).Chain' (fun a b => ¬(a = ' ' ∧ b = ' ')) :=
  trim_chain (squeeze_noDouble _)

/-- C7: every bullet returned by `splitBulletPoints` is non-empty and at
least 10 characters long after cleanup (the code keeps a chunk only when
its trimmed length exceeds 10, and `cleanText` cannot shrink an already
collapsed, trimmed chunk). -/
theorem c7_bullets_min_length (text : List Char) :
    ∀ b ∈ splitBulletPoints text, b ≠ [] ∧ 10 ≤ b.length := by
  intro b hb
  by_cases hne : trim text = []
  · simp only [splitBulletPoints, if_pos hne] at hb
    simp at hb
  · simp only [splitBulletPoints, if_neg hne] at hb
    split at hb
    · next hcond =>
      simp only [List.mem_singleton] at hb
      subst hb
      have hge := cleanText_len_ge (joinedOf_allWs text) (joinedOf_chain text)
        trim_head trim_getLast
      have hlen := hcond.2
      refine ⟨List.ne_nil_of_length_pos (by omega), by omega⟩
    · obtain ⟨chunk, hmem, hchunk⟩ := List.mem_filterMap.mp hb
      split at hchunk
      · next hlen =>
        simp only [Option.some.injEq] at hchunk
        subst hchunk
        obtain ⟨a, bb, rfl⟩ := bulletChunks_shape hmem
        have hge := chunk_invariants (joinedOf_allWs text)
          (joinedOf_chain text) a bb
        refine ⟨List.ne_nil_of_length_pos (by omega), by omega⟩
      · exact absurd hchunk (by simp)

/-- Witness for `c7_bullets_min_length` at a concrete bullet. -/
theorem c7_witness :
    cleanText (joinedOf "An insight about culture".toList) ≠ [] ∧
    10 ≤ (cleanText (joinedOf "An insight about culture".toList)).length :=
  c7_bullets_min_length "An insight about culture".toList _ (by decide)

/-! ### The report assembler (pdf-parser.ts:120-173) -/

/-- Match `\n-- \d+ of \d+ --\n` at this position, returning its length
(the greedy `\d+` runs are deterministic: a space follows). -/
def pageBreakAt (t : List Char) : Option Nat :=
  match stripLit "\n-- ".toList t with
  | none => none
  | some u1 =>
    let d1 := u1.takeWhile (fun c => isDigitB c)
    if d1 = [] then none
    else
      match stripLit " of ".toList (u1.drop d1.length) with
      | none => none
      | some u2 =>
        let d2 := u2.takeWhile (fun c => isDigitB c)
        if d2 = [] then none
        else
          match stripLit " --\n".toList (u2.drop d2.length) with
          | none => none
          | some _ => some (4 + d1.length + 4 + d2.length + 4)

/-- `text.replace(/\n-- \d+ of \d+ --\n/g, "\n")` (pdf-parser.ts:122):
leftmost non-overlapping matches, each replaced by one newline. -/
def stripPageBreaksF : Nat → List Char → List Char
  | 0, t => t
  | _ + 1, [] => []
  | f + 1, c :: rest =>
    match pageBreakAt (c :: rest) with
    | some L => '\n' :: stripPageBreaksF f ((c :: rest).drop L)
    | none => c :: stripPageBreaksF f rest

def stripPageBreaks (t : List Char) : List Char := stripPageBreaksF t.length t

/-- The alternation `(?:\nNPS\s|\nEngagement\s|\nInterview Date\s)`. -/
def ectAlt (u : List Char) : Bool :=
  (match stripLit "\nNPS".toList u with
   | some (c :: _) => isWs c
   | _ => false) ||
  (match stripLit "\nEngagement".toList u with
   | some (c :: _) => isWs c
   | _ => false) ||
  (match stripLit "\nInterview Date".toList u with
   | some (c :: _) => isWs c
   | _ => false)

/-- The lazy `(.+?)` capture: grow char by char (never across a newline)
until the header alternation matches; at least one char. -/
def capScan : List Char → List Char → Option (List Char)
  | acc, u =>
    if acc.isEmpty = false && ectAlt u then some acc.reverse
    else
      match u with
      | [] => none
      | c :: r => if isLineTerm c then none else capScan (c :: acc) r

/-- The lazy `[\s\S]*?` scan: earliest position after which
`Interview Report\n(.+?)(?:alternation)` matches. -/
def ectScan : List Char → Option (List Char)
  | [] => none
  | u@(_ :: r) =>
    match (stripLit "Interview Report\n".toList u).bind (capScan []) with
    | some cap => some cap
    | none => ectScan r

/-- `extractClientFromTitle` (pdf-parser.ts:180-189): leftmost occurrence
of `Customer Centricity:` from which the full pattern matches. -/
def extractClientFromTitleScan : List Char → Option (List Char)
  | [] => none
  | u@(_ :: r) =>
    match (stripLit "Customer Centricity:".toList u).bind ectScan with
    | some cap => some cap
    | none => extractClientFromTitleScan r

def extractClientFromTitle (text : List Char) : List Char :=
  match extractClientFromTitleScan text with
  | some cap => trim cap
  | none => []

structure ExtractedSections where
  overview : List Char
  whatWentWell : List (List Char)
  challengesPainPoints : List (List Char)
  gapsIdentified : List (List Char)
  keyThemes : List (List Char)
  actionsRecommendations : List (List Char)
  additionalInsight : List Char
deriving DecidableEq

/-- `extractSections` (pdf-parser.ts:238-303). -/
def extractSections (text : List Char) : ExtractedSections :=
  let spans := sectionSpans text
  { overview := sectionTextFor text spans SKey.overview
    whatWentWell :=
      splitBulletPoints (sectionTextFor text spans SKey.whatWentWell)
    challengesPainPoints :=
      splitBulletPoints (sectionTextFor text spans SKey.challengesPainPoints)
    gapsIdentified :=
      splitBulletPoints (sectionTextFor text spans SKey.gapsIdentified)
    keyThemes := splitBulletPoints (sectionTextFor text spans SKey.keyThemes)
    actionsRecommendations :=
      splitBulletPoints (sectionTextFor text spans SKey.actionsRecommendations)
    additionalInsight := sectionTextFor text spans SKey.additionalInsight }

structure ParsedPdfReport where
  client : List Char
  company : List Char
  engagement : List Char
  interviewDate : List Char
  score : Option Int
  overview : List Char
  whatWentWell : List (List Char)
  challengesPainPoints : List (List Char)
  gapsIdentified : List (List Char)
  keyThemes : List (List Char)
  actionsRecommendations : List (List Char)
  additionalInsight : List Char
deriving DecidableEq

/-- `parsePdfText` (pdf-parser.ts:120-173).  The embedding is a total
function — every operation the JS code performs on its input is total —
so "never throws" holds by construction; `score = none` models both the
missing-field `null` and a `NaN` parse. -/
def parsePdfText (text : List Char) : ParsedPdfReport :=
  let cleaned := stripPageBreaks text
  let clientField0 := extractHeaderFieldR cleaned "Client".toList
  let npsField := extractHeaderFieldR cleaned "NPS".toList
  let engagement := extractHeaderFieldR cleaned "Engagement".toList
  let dateRaw := extractHeaderFieldR cleaned "Interview Date".toList
  let clientField :=
    if clientField0 = [] then extractClientFromTitle cleaned else clientField0
  let nc := reportClientSplit clientField
  let sections := extractSections cleaned
  { client := nc.1
    company := nc.2
    engagement := engagement
    interviewDate := parseDateFieldR dateRaw
    score := if npsField = [] then none else jsParseInt npsField
    overview := sections.overview
    whatWentWell := sections.whatWentWell
    challengesPainPoints := sections.challengesPainPoints
    gapsIdentified := sections.gapsIdentified
    keyThemes := sections.keyThemes
    actionsRecommendations := sections.actionsRecommendations
    additionalInsight := sections.additionalInsight }

/-! ### The transcript assembler (transcript-parser.ts:128-297) -/

def wsRun (t : List Char) : Nat := (t.takeWhile (fun c => isWs c)).length

def digRun (t : List Char) : Nat := (t.takeWhile (fun c => isDigitB c)).length

/-- `$` with the `m` flag: end of string or just before a line
terminator. -/
def atLineEnd : List Char → Bool
  | [] => true
  | c :: _ => isLineTerm c

/-- `\d{1,2}:\d{2}` with exactly `dlen` leading digits, then the trailing
`\s*$` (greedy, `k` descending). Returns (timestamp chars, consumed). -/
def wsThenEnd (u : List Char) : Nat → Option Nat
  | 0 => if atLineEnd u then some 0 else none
  | k + 1 =>
    if atLineEnd (u.drop (k + 1)) then some (k + 1) else wsThenEnd u k

def tsCore (u : List Char) (dlen : Nat) : Option (List Char × Nat) :=
  let ds := u.take dlen
  if ds.length = dlen && ds.all (fun c => isDigitB c) then
    match u.drop dlen with
    | ':' :: v =>
      let ms := v.take 2
      if ms.length = 2 && ms.all (fun c => isDigitB c) then
        match wsThenEnd (v.drop 2) (wsRun (v.drop 2)) with
        | some k => some (ds ++ ':' :: ms, dlen + 1 + 2 + k)
        | none => none
      else none
    | _ => none
  else none

/-- `(\d{1,2}:\d{2})\s*$` with the greedy `\d{1,2}` (2 digits first). -/
def tryTs (u : List Char) : Option (List Char × Nat) :=
  match tsCore u 2 with
  | some r => some r
  | none => tsCore u 1

/-- `\s*(?:(\d{1,2}:\d{2})\s*)?$`: the middle `\s*` is greedy
(`k` descending), the optional timestamp group preferred present. -/
def middleEnd (u : List Char) : Nat → Option (Option (List Char) × Nat)
  | 0 =>
    match tryTs u with
    | some (ts, tl) => some (some ts, tl)
    | none => if atLineEnd u then some (none, 0) else none
  | k + 1 =>
    match tryTs (u.drop (k + 1)) with
    | some (ts, tl) => some (some ts, (k + 1) + tl)
    | none =>
      if atLineEnd (u.drop (k + 1)) then some (none, k + 1)
      else middleEnd u k

/-- The optional `(?:\s+\d+)?` of `Speaker(?:\s+\d+)?`: greedy digit run,
backtracking `dk` descending; the `\s+` must be the whole run (a digit
must follow). -/
def speakerNumTry (u : List Char) (w : Nat) :
    Nat → Option (Nat × Option (List Char) × Nat)
  | 0 => none
  | dk + 1 =>
    match middleEnd (u.drop (w + dk + 1)) (wsRun (u.drop (w + dk + 1))) with
    | some (ts, ml) => some (dk + 1, ts, ml)
    | none => speakerNumTry u w dk

/-- One attempt of
`^(Interviewer|Speaker(?:\s+\d+)?)\s*(?:(\d{1,2}:\d{2})\s*)?$` at a line
start. Returns (`match[1]` chars, timestamp capture, match length). -/
def matchSpeakerAt (t : List Char) :
    Option (List Char × Option (List Char) × Nat) :=
  match stripLit "Interviewer".toList t with
  | some u =>
    (middleEnd u (wsRun u)).map (fun p => ("Interviewer".toList, p.1, 11 + p.2))
  | none =>
    match stripLit "Speaker".toList t with
    | some u =>
      let w := wsRun u
      match (if w = 0 then none else speakerNumTry u w (digRun (u.drop w))) with
      | some (dk, ts, ml) =>
        some ("Speaker".toList ++ u.take w ++ (u.drop w).take dk, ts,
          7 + w + dk + ml)
      | none =>
        (middleEnd u (wsRun u)).map (fun p => ("Speaker".toList, p.1, 7 + p.2))
    | none => none

/-- The `speakerPattern.exec` loop (transcript-parser.ts:257-263):
leftmost `m`-anchored matches with their indices, the cursor jumping past
each whole match. -/
def scanSpeakersF : Nat → List Char → Nat → Bool →
    List (List Char × Option (List Char) × Nat)
  | 0, _, _, _ => []
  | _ + 1, [], _, _ => []
  | f + 1, t@(c :: rest), i, atLS =>
    match (if atLS then matchSpeakerAt t else none) with
    | some (lab, ts, L) =>
      (lab, ts, i) :: scanSpeakersF f (t.drop L) (i + L)
        (match (t.take L).getLast? with
         | some c' => isLineTerm c'
         | none => false)
    | none => scanSpeakersF f rest (i + 1) (isLineTerm c)

structure TranscriptTurn where
  speaker : List Char
  text : List Char
deriving DecidableEq

/-- `transcriptText.indexOf("\n", idx)`; `none` models `-1`. -/
def idxOfNlFrom (t : List Char) (i : Nat) : Option Nat :=
  if '\n' ∈ t.drop i then
    some (i + ((t.drop i).takeWhile (fun c => !(c = '\n'))).length)
  else none

/-- The per-match turn loop (transcript-parser.ts:266-294). -/
def buildTurns (tt : List Char) :
    List (List Char × Option (List Char) × Nat) → List TranscriptTurn
  | [] => []
  | (lab, ts, idx) :: rest =>
    match idxOfNlFrom tt idx with
    | none => buildTurns tt rest
    | some lineEnd =>
      let textEnd := match rest with
        | [] => tt.length
        | (_, _, idx') :: _ => idx'
      let turnText := collapseWs (trim (jsSubstring tt (lineEnd + 1) textEnd))
      if turnText = [] then buildTurns tt rest
      else
        { speaker := trim (match ts with
            | some tsc => lab ++ ' ' :: tsc
            | none => lab)
          text := cleanText turnText } :: buildTurns tt rest

/-- `/FULL TRANSCRIPT\s*/i`: leftmost case-insensitive occurrence;
returns `match.index + match[0].length`. -/
def findFullTranscriptF : Nat → List Char → Nat → Option Nat
  | 0, _, _ => none
  | f + 1, t, i =>
    match litCI "full transcript".toList t with
    | some u => some (i + 15 + wsRun u)
    | none =>
      match t with
      | [] => none
      | _ :: r => findFullTranscriptF f r (i + 1)

def findFullTranscript (t : List Char) : Option Nat :=
  findFullTranscriptF (t.length + 1) t 0

/-- `extractTranscriptTurns` (transcript-parser.ts:237-297). -/
def extractTranscriptTurns (text : List Char) : List TranscriptTurn :=
  match findFullTranscript text with
  | none => []
  | some past =>
    let tt := text.drop past
    buildTurns tt (scanSpeakersF tt.length tt 0 true)

structure ParsedTranscriptPdf where
  client : List Char
  clientName : List Char
  clientTitle : List Char
  company : List Char
  project : List Char
  interviewDate : List Char
  score : Int
  fullTranscript : List TranscriptTurn
  rawText : List Char
deriving DecidableEq

/-- `parseTranscriptPdfText` (transcript-parser.ts:128-161).  The
embedding is a total function, mirroring the JS code in which every
operation on the input is total; `parseInt(scoreStr, 10) || 0` maps a
`NaN` parse to 0. -/
def parseTranscriptPdfText (text : List Char) : ParsedTranscriptPdf :=
  let dateRaw := extractHeaderFieldT text "Interview Date".toList
  let clientField := extractHeaderFieldT text "Client".toList
  let project := extractHeaderFieldT text "Project".toList
  let scoreStr := extractHeaderFieldT text "Score".toList
  let pcf := parseClientField clientField
  let fullTranscript := extractTranscriptTurns text
  { client := clientField
    clientName := pcf.clientName
    clientTitle := pcf.clientTitle
    company := pcf.company
    project := project
    interviewDate := parseDateFieldT dateRaw
    score := (jsParseInt scoreStr).getD 0
    fullTranscript := fullTranscript
    rawText := jsJoin "\n\n".toList
      (fullTranscript.map (fun t => t.speaker ++ ':' :: ' ' :: t.text)) }

/-- C10: when the body text has no `FULL TRANSCRIPT` marker
(case-insensitive), the turn segmenter returns no turns and the
assembled document's `rawText` is empty. -/
theorem c10_no_marker_no_turns (text : List Char)
    (h : findFullTranscript text = none) :
    extractTranscriptTurns text = [] ∧
    (parseTranscriptPdfText text).rawText = [] := by
  have ht : extractTranscriptTurns text = [] := by
    rw [extractTranscriptTurns, h]
  refine ⟨ht, ?_⟩
  simp only [parseTranscriptPdfText]
  rw [ht]
  rfl

/-- Witness for `c10_no_marker_no_turns`. -/
theorem c10_witness :
    extractTranscriptTurns "hello world".toList = [] ∧
    (parseTranscriptPdfText "hello world".toList).rawText = [] :=
  c10_no_marker_no_turns "hello world".toList (by decide)

/-- C3: both assemblers are total by construction (each is a plain Lean
function defined for every input string, mirroring the JS code in which
every operation performed on the input is total), and every missing
field resolves to its empty default: header fields whose patterns match
nowhere yield `""` (resp. `null`/`0` for scores), each of the seven
section headings whose marker matches nowhere yields an empty
string/array, and a missing `FULL TRANSCRIPT` marker yields no turns. -/
theorem c3_assemblers_total_defaults (text : List Char) :
    ((extractHeaderFieldR (stripPageBreaks text) "Engagement".toList = [] →
        (parsePdfText text).engagement = []) ∧
     (extractHeaderFieldR (stripPageBreaks text)
        "Interview Date".toList = [] →
        (parsePdfText text).interviewDate = []) ∧
     (extractHeaderFieldR (stripPageBreaks text) "NPS".toList = [] →
        (parsePdfText text).score = none) ∧
     (extractHeaderFieldR (stripPageBreaks text) "Client".toList = [] →
        extractClientFromTitle (stripPageBreaks text) = [] →
        (parsePdfText text).client = [] ∧ (parsePdfText text).company = [])) ∧
    ((findItemsEnd (markerFor SKey.overview)
        (stripPageBreaks text) 0 = none →
        (parsePdfText text).overview = []) ∧
     (findItemsEnd (markerFor SKey.whatWentWell)
        (stripPageBreaks text) 0 = none →
        (parsePdfText text).whatWentWell = []) ∧
     (findItemsEnd (markerFor SKey.challengesPainPoints)
        (stripPageBreaks text) 0 = none →
        (parsePdfText text).challengesPainPoints = []) ∧
     (findItemsEnd (markerFor SKey.gapsIdentified)
        (stripPageBreaks text) 0 = none →
        (parsePdfText text).gapsIdentified = []) ∧
     (findItemsEnd (markerFor SKey.keyThemes)
        (stripPageBreaks text) 0 = none →
        (parsePdfText text).keyThemes = []) ∧
     (findItemsEnd (markerFor SKey.actionsRecommendations)
        (stripPageBreaks text) 0 = none →
        (parsePdfText text).actionsRecommendations = []) ∧
     (findItemsEnd (markerFor SKey.additionalInsight)
        (stripPageBreaks text) 0 = none →
        (parsePdfText text).additionalInsight = [])) ∧
    ((extractHeaderFieldT text "Project".toList = [] →
        (parseTranscriptPdfText text).project = []) ∧
     (extractHeaderFieldT text "Interview Date".toList = [] →
        (parseTranscriptPdfText text).interviewDate = []) ∧
     (extractHeaderFieldT text "Score".toList = [] →
        (parseTranscriptPdfText text).score = 0) ∧
     (extractHeaderFieldT text "Client".toList = [] →
        (parseTranscriptPdfText text).clientName = [] ∧
        (parseTranscriptPdfText text).clientTitle = [] ∧
        (parseTranscriptPdfText text).company = []) ∧
     (findFullTranscript text = none →
        (parseTranscriptPdfText text).fullTranscript = [] ∧
        (parseTranscriptPdfText text).rawText = [])) := by
  refine ⟨⟨?_, ?_, ?_, ?_⟩, ⟨?_, ?_, ?_, ?_, ?_, ?_, ?_⟩,
    ⟨?_, ?_, ?_, ?_, ?_⟩⟩
  · intro h
    simp only [parsePdfText]
    rw [h]
  · intro h
    simp only [parsePdfText]
    rw [h]
    rfl
  · intro h
    simp only [parsePdfText]
    rw [h, if_pos rfl]
  · intro h1 h2
    simp only [parsePdfText]
    rw [h1, if_pos rfl, h2]
    exact ⟨by decide, by decide⟩
  · intro h
    simp only [parsePdfText, extractSections]
    rw [sectionTextFor_of_unfound _ _ h]
  · intro h
    simp only [parsePdfText, extractSections]
    rw [sectionTextFor_of_unfound _ _ h]
    decide
  · intro h
    simp only [parsePdfText, extractSections]
    rw [sectionTextFor_of_unfound _ _ h]
    decide
  · intro h
    simp only [parsePdfText, extractSections]
    rw [sectionTextFor_of_unfound _ _ h]
    decide
  · intro h
    simp only [parsePdfText, extractSections]
    rw [sectionTextFor_of_unfound _ _ h]
    decide
  · intro h
    simp only [parsePdfText, extractSections]
    rw [sectionTextFor_of_unfound _ _ h]
    decide
  · intro h
    simp only [parsePdfText, extractSections]
    rw [sectionTextFor_of_unfound _ _ h]
  · intro h
    simp only [parseTranscriptPdfText]
    rw [h]
  · intro h
    simp only [parseTranscriptPdfText]
    rw [h]
    rfl
  · intro h
    simp only [parseTranscriptPdfText]
    rw [h]
    rfl
  · intro h
    simp only [parseTranscriptPdfText]
    rw [h]
    exact ⟨by decide, by decide, by decide⟩
  · intro h
    have ht : extractTranscriptTurns text = [] := by
      rw [extractTranscriptTurns, h]
    simp only [parseTranscriptPdfText]
    rw [ht]
    exact ⟨rfl, rfl⟩

/-- Witness for `c3_assemblers_total_defaults` on a sparse input. -/
theorem c3_witness :
    (parsePdfText "xyz".toList).engagement = [] ∧
    (parsePdfText "xyz".toList).interviewDate = [] ∧
    (parsePdfText "xyz".toList).score = none ∧
    (parsePdfText "xyz".toList).client = [] ∧
    (parsePdfText "xyz".toList).overview = [] ∧
    (parsePdfText "xyz".toList).whatWentWell = [] ∧
    (parsePdfText "xyz".toList).challengesPainPoints = [] ∧
    (parsePdfText "xyz".toList).gapsIdentified = [] ∧
    (parsePdfText "xyz".toList).keyThemes = [] ∧
    (parsePdfText "xyz".toList).actionsRecommendations = [] ∧
    (parsePdfText "xyz".toList).additionalInsight = [] ∧
    (parseTranscriptPdfText "xyz".toList).project = [] ∧
    (parseTranscriptPdfText "xyz".toList).score = 0 ∧
    (parseTranscriptPdfText "xyz".toList).rawText = [] :=
  ⟨(c3_assemblers_total_defaults "xyz".toList).1.1 (by decide),
   (c3_assemblers_total_defaults "xyz".toList).1.2.1 (by decide),
   (c3_assemblers_total_defaults "xyz".toList).1.2.2.1 (by decide),
   ((c3_assemblers_total_defaults "xyz".toList).1.2.2.2 (by decide)
      (by decide)).1,
   (c3_assemblers_total_defaults "xyz".toList).2.1.1 (by decide),
   (c3_assemblers_total_defaults "xyz".toList).2.1.2.1 (by decide),
   (c3_assemblers_total_defaults "xyz".toList).2.1.2.2.1 (by decide),
   (c3_assemblers_total_defaults "xyz".toList).2.1.2.2.2.1 (by decide),
   (c3_assemblers_total_defaults "xyz".toList).2.1.2.2.2.2.1 (by decide),
   (c3_assemblers_total_defaults "xyz".toList).2.1.2.2.2.2.2.1 (by decide),
   (c3_assemblers_total_defaults "xyz".toList).2.1.2.2.2.2.2.2 (by decide),
   (c3_assemblers_total_defaults "xyz".toList).2.2.1 (by decide),
   (c3_assemblers_total_defaults "xyz".toList).2.2.2.2.1 (by decide),
   ((c3_assemblers_total_defaults "xyz".toList).2.2.2.2.2.2 (by decide)).2⟩

end KFCX
